import Mathlib

/-!
# Spam-report pipeline: embedding of `spammer.go` / `internal/pipeline/pipeline.go`

Each stage `func(in, out chan interface{})` is embedded as a transition system over an
explicit state: the inbound stream not yet read, the goroutines the stage has launched with
the point each one has reached, and the values sent on `out` so far.  A schedule is the list
of scheduler choices; `exec` replays it.  Statements quantify over all schedules, so they hold
for every interleaving of the goroutines.

The two files agree on `SelectMessages`, `CheckSpam` and `CombineResults`. They differ in
`SelectUsers`: `pipeline.go` hands each goroutine its email, `spammer.go` lets the goroutine
read the range variable of the loop. The first is `SelectUsers`, the second `Main.SelectUsers`.
-/

namespace Spammer

/-! ## Data model -/

/-- Modelled from the spec: the declaration of `MsgID` is not part of the sources at hand; the
spec calls it an integer identifier printed with `%d`, and the stages only compare and print
it, so it is an unbounded natural number here. -/
abbrev MsgID := Nat

/-- Modelled from the spec: the declaration of `User` is not part of the sources at hand; the
stages read only its `Email` field, `ID` stands for the rest of the record. -/
structure User where
  ID : Nat
  Email : String
deriving DecidableEq, Repr

/-- Modelled from the spec: the declaration of `MsgData` is not part of the sources at hand; the
stages build it as `MsgData{ID: id, HasSpam: res}` and read both fields. -/
structure MsgData where
  ID : MsgID
  HasSpam : Bool
deriving DecidableEq, Repr

/-! ## Schedules -/

/-- Replays a schedule: the scheduled actions are applied one after another; an action that is
not enabled in the state it meets makes the schedule infeasible (`none`). -/
def exec {σ α : Type} (step : σ → α → Option σ) : σ → List α → Option σ
  | s, [] => some s
  | s, a :: rest =>
    match step s a with
    | some s' => exec step s' rest
    | none => none

/-- The values a stage has sent on `out` once it has returned: the schedule must be feasible and
must end in a state in which the stage function returns. -/
def runStage {σ α β : Type} (step : σ → α → Option σ) (returned : σ → Bool) (out : σ → List β)
    (init : σ) (sched : List α) : Option (List β) :=
  match exec step init sched with
  | some s => if returned s then some (out s) else none
  | none => none

/-! ## SelectUsers -/

/-- One goroutine launched by `SelectUsers` for an inbound email, with the point it has reached:
`lookup` before `GetUser` returns, `waiting` between the return of `GetUser` and `mu.Lock()`,
`finished` after `mu.Unlock()`. -/
inductive UserTask where
  | lookup (email : String)
  | waiting (email : String) (user : User)
  | finished (email : String) (user : User)
deriving DecidableEq, Repr

/-- The email a task was launched for. -/
def UserTask.email : UserTask → String
  | .lookup e => e
  | .waiting e _ => e
  | .finished e _ => e

/-- Whether the task has run to `wg.Done()`. -/
def UserTask.isFinished : UserTask → Bool
  | .finished _ _ => true
  | _ => false

/-- Remaining scheduler steps of a task. -/
def UserTask.weight : UserTask → Nat
  | .lookup _ => 2
  | .waiting _ _ => 1
  | .finished _ _ => 0

/-- State of `SelectUsers`: `inbox` is what `range in` has not yet delivered, `tasks` the
goroutines in launch order, `users` the keys of the `users` map, `out` the users sent. -/
structure UsersState where
  inbox : List String
  tasks : List UserTask
  users : List String
  out : List User
deriving DecidableEq, Repr

/-- Scheduler choices of `SelectUsers`. `recv`: the loop receives the next email and launches
its goroutine. `getUser i`: `GetUser` returns in task `i`. `critical i`: task `i` takes the
mutex and runs the check, the insert, the send and the unlock. -/
inductive UsersAction where
  | recv
  | getUser (i : Nat)
  | critical (i : Nat)
deriving DecidableEq, Repr

/-- State on entry of `SelectUsers`. -/
def SelectUsers.init (emails : List String) : UsersState :=
  { inbox := emails, tasks := [], users := [], out := [] }

/-- One step of `SelectUsers` of `pipeline.go`, where the goroutine is `func(email string)` and
is handed the email of its iteration. -/
def SelectUsers.step (GetUser : String → User) (s : UsersState) : UsersAction → Option UsersState
  | .recv =>
    match s.inbox with
    | [] => none
    | email :: rest => some { s with inbox := rest, tasks := s.tasks ++ [.lookup email] }
  | .getUser i =>
    match s.tasks[i]? with
    | some (.lookup email) =>
      some { s with tasks := s.tasks.set i (.waiting email (GetUser email)) }
    | _ => none
  | .critical i =>
    match s.tasks[i]? with
    | some (.waiting email user) =>
      if s.users.contains user.Email then
        some { s with tasks := s.tasks.set i (.finished email user) }
      else
        some { s with
          users := user.Email :: s.users
          out := s.out ++ [user]
          tasks := s.tasks.set i (.finished email user) }
    | _ => none

/-- `SelectUsers` returns when `in` is drained and closed and `wg.Wait()` has passed. -/
def SelectUsers.returned (s : UsersState) : Bool :=
  s.inbox.isEmpty && s.tasks.all UserTask.isFinished

/-- Number of scheduler steps `SelectUsers` can still take. -/
def SelectUsers.measure (s : UsersState) : Nat :=
  3 * s.inbox.length + (s.tasks.map UserTask.weight).sum

/-- The users `SelectUsers` sends on `out` for the inbound emails under a schedule. -/
def SelectUsers (GetUser : String → User) (emails : List String) (sched : List UsersAction) :
    Option (List User) :=
  runStage (SelectUsers.step GetUser) SelectUsers.returned UsersState.out
    (SelectUsers.init emails) sched

/-! ## SelectUsers of `spammer.go`

In `spammer.go` the goroutine is `func(in, out chan interface{})` and its body reads the range
variable `email` of the enclosing loop. With a `go` directive below 1.22 the loop has one such
variable, assigned anew by every iteration, and a goroutine reads whatever it holds at the
moment it evaluates `email.(string)`. This section embeds that reading; with one variable per
iteration the goroutine reads the email it was launched for and the stage is `SelectUsers`
above. -/

/-- One goroutine launched by `SelectUsers` of `spammer.go`. `started`: launched, the argument
`email.(string)` of `GetUser` not yet evaluated. `lookup`: the range variable has been read as
`email` and `GetUser` has not returned. `waiting`, `finished`: as in `UserTask`. -/
inductive Main.UserTask where
  | started
  | lookup (email : String)
  | waiting (email : String) (user : User)
  | finished (email : String) (user : User)
deriving DecidableEq, Repr

/-- Whether the task has run to `wg.Done()`. -/
def Main.UserTask.isFinished : Main.UserTask → Bool
  | .finished _ _ => true
  | _ => false

/-- State of `SelectUsers` of `spammer.go`: as `UsersState`, with `email` the value the range
variable holds, `none` before the first iteration. -/
structure Main.UsersState where
  inbox : List String
  email : Option String
  tasks : List Main.UserTask
  users : List String
  out : List User
deriving DecidableEq, Repr

/-- Scheduler choices of `SelectUsers` of `spammer.go`. `recv`: the loop receives the next
email into the range variable and launches a goroutine. `read i`: task `i` evaluates
`email.(string)`. `getUser i`, `critical i`: as in `UsersAction`. -/
inductive Main.UsersAction where
  | recv
  | read (i : Nat)
  | getUser (i : Nat)
  | critical (i : Nat)
deriving DecidableEq, Repr

/-- State on entry of `SelectUsers` of `spammer.go`. -/
def Main.SelectUsers.init (emails : List String) : Main.UsersState :=
  { inbox := emails, email := none, tasks := [], users := [], out := [] }

/-- One step of `SelectUsers` of `spammer.go`. -/
def Main.SelectUsers.step (GetUser : String → User) (s : Main.UsersState) :
    Main.UsersAction → Option Main.UsersState
  | .recv =>
    match s.inbox with
    | [] => none
    | email :: rest =>
      some { s with inbox := rest, email := some email, tasks := s.tasks ++ [.started] }
  | .read i =>
    match s.tasks[i]?, s.email with
    | some .started, some email => some { s with tasks := s.tasks.set i (.lookup email) }
    | _, _ => none
  | .getUser i =>
    match s.tasks[i]? with
    | some (.lookup email) =>
      some { s with tasks := s.tasks.set i (.waiting email (GetUser email)) }
    | _ => none
  | .critical i =>
    match s.tasks[i]? with
    | some (.waiting email user) =>
      if s.users.contains user.Email then
        some { s with tasks := s.tasks.set i (.finished email user) }
      else
        some { s with
          users := user.Email :: s.users
          out := s.out ++ [user]
          tasks := s.tasks.set i (.finished email user) }
    | _ => none

/-- `SelectUsers` of `spammer.go` returns when `in` is drained and closed and `wg.Wait()` has
passed. -/
def Main.SelectUsers.returned (s : Main.UsersState) : Bool :=
  s.inbox.isEmpty && s.tasks.all Main.UserTask.isFinished

/-- The users `SelectUsers` of `spammer.go` sends on `out` for the inbound emails under a
schedule. -/
def Main.SelectUsers (GetUser : String → User) (emails : List String)
    (sched : List Main.UsersAction) : Option (List User) :=
  runStage (Main.SelectUsers.step GetUser) Main.SelectUsers.returned Main.UsersState.out
    (Main.SelectUsers.init emails) sched

/-! ## SelectMessages -/

/-- One fetch goroutine launched by `SelectMessages` for a batch; `call` numbers the fetch calls
in launch order. `fetching`: `GetMessages` has not returned. `sending`: it returned without
error and `msgs` are still to be sent. `finished`: the goroutine is done (`err != nil`, or all
messages sent). -/
inductive FetchTask where
  | fetching (call : Nat) (batch : List User)
  | sending (call : Nat) (batch : List User) (msgs : List MsgID)
  | finished (call : Nat) (batch : List User)
deriving DecidableEq, Repr

/-- The batch a fetch goroutine was launched with. -/
def FetchTask.batch : FetchTask → List User
  | .fetching _ b => b
  | .sending _ b _ => b
  | .finished _ b => b

/-- The number of the fetch call of a goroutine. -/
def FetchTask.call : FetchTask → Nat
  | .fetching c _ => c
  | .sending c _ _ => c
  | .finished c _ => c

/-- Whether the goroutine has run to `wg.Done()`. -/
def FetchTask.isFinished : FetchTask → Bool
  | .finished _ _ => true
  | _ => false

/-- Number of `GetMessages` calls the goroutine has made so far. -/
def FetchTask.callsMade : FetchTask → Nat
  | .fetching _ _ => 0
  | _ => 1

/-- The user list the goroutine has called `GetMessages` with, none while it has not called. -/
def FetchTask.fetchedBatch : FetchTask → List (List User)
  | .fetching _ _ => []
  | .sending _ b _ => [b]
  | .finished _ b => [b]

/-- What a successful fetch hands back, nothing for a failed one. -/
def fetched (GetMessages : Nat → List User → Option (List MsgID)) (call : Nat)
    (batch : List User) : List MsgID :=
  match GetMessages call batch with
  | some msgs => msgs
  | none => []

/-- The messages a goroutine will still send. -/
def FetchTask.owed (GetMessages : Nat → List User → Option (List MsgID)) : FetchTask → List MsgID
  | .fetching c b => fetched GetMessages c b
  | .sending _ _ msgs => msgs
  | .finished _ _ => []

/-- Remaining scheduler steps of a fetch goroutine. -/
def FetchTask.weight (GetMessages : Nat → List User → Option (List MsgID)) : FetchTask → Nat
  | .fetching c b => (fetched GetMessages c b).length + 2
  | .sending _ _ msgs => msgs.length + 1
  | .finished _ _ => 0

/-- State of `SelectMessages`: `inbox` is what `range in` has not yet delivered, `users` the
accumulator slice, `flushed` whether the code after the loop has run, `tasks` the fetch
goroutines in launch order, `calls` the number of `GetMessages` calls made, `fetches` the user
lists `GetMessages` was called with, in the order of the calls, `out` the message ids sent. -/
structure MessagesState where
  inbox : List User
  users : List User
  flushed : Bool
  tasks : List FetchTask
  calls : Nat
  fetches : List (List User)
  out : List MsgID
deriving DecidableEq, Repr

/-- Scheduler choices of `SelectMessages`. `recv`: the loop receives the next user, appends it
and launches a fetch when the accumulator has reached the batch size. `flush`: the input is
exhausted and the code after the loop launches a fetch for a non-empty rest. `fetch i`:
`GetMessages` returns in goroutine `i`. `send i`: goroutine `i` sends its next message, or ends
when none is left. -/
inductive MessagesAction where
  | recv
  | flush
  | fetch (i : Nat)
  | send (i : Nat)
deriving DecidableEq, Repr

/-- The batches the main goroutine of `SelectMessages` launches from the accumulator `users`
and the users still to come: each user is appended, a full accumulator (`len(users) ==
GetMessagesMaxUsersBatch`) is launched and the accumulator reset, and after the loop a non-empty
rest is launched. -/
def batchLoop (B : Nat) : List User → List User → List (List User)
  | users, [] => if users.length ≠ 0 then [users] else []
  | users, user :: rest =>
    if (users ++ [user]).length = B then (users ++ [user]) :: batchLoop B [] rest
    else batchLoop B (users ++ [user]) rest

/-- The batches `SelectMessages` launches for an inbound user sequence, in launch order. -/
def batches (B : Nat) (input : List User) : List (List User) := batchLoop B [] input

/-- State on entry of `SelectMessages`. -/
def SelectMessages.init (input : List User) : MessagesState :=
  { inbox := input, users := [], flushed := false, tasks := [], calls := 0, fetches := [],
    out := [] }

/-- One step of `SelectMessages`; `B` is `GetMessagesMaxUsersBatch`, `GetMessages call batch` is
the outcome of the fetch call number `call`: `none` for `err != nil`. -/
def SelectMessages.step (B : Nat) (GetMessages : Nat → List User → Option (List MsgID))
    (s : MessagesState) : MessagesAction → Option MessagesState
  | .recv =>
    match s.inbox with
    | [] => none
    | user :: rest =>
      let users := s.users ++ [user]
      if users.length = B then
        some { s with
          inbox := rest
          users := []
          tasks := s.tasks ++ [.fetching s.tasks.length users] }
      else
        some { s with inbox := rest, users := users }
  | .flush =>
    if s.inbox.isEmpty && !s.flushed then
      if s.users.length ≠ 0 then
        some { s with flushed := true, tasks := s.tasks ++ [.fetching s.tasks.length s.users] }
      else
        some { s with flushed := true }
    else none
  | .fetch i =>
    match s.tasks[i]? with
    | some (.fetching call batch) =>
      match GetMessages call batch with
      | some msgs =>
        some { s with
          calls := s.calls + 1
          fetches := s.fetches ++ [batch]
          tasks := s.tasks.set i (.sending call batch msgs) }
      | none =>
        some { s with
          calls := s.calls + 1
          fetches := s.fetches ++ [batch]
          tasks := s.tasks.set i (.finished call batch) }
    | _ => none
  | .send i =>
    match s.tasks[i]? with
    | some (.sending call batch (msg :: rest)) =>
      some { s with out := s.out ++ [msg], tasks := s.tasks.set i (.sending call batch rest) }
    | some (.sending call batch []) =>
      some { s with tasks := s.tasks.set i (.finished call batch) }
    | _ => none

/-- `SelectMessages` returns when the code after the loop has run and `wg.Wait()` has passed. -/
def SelectMessages.returned (s : MessagesState) : Bool :=
  s.flushed && s.tasks.all FetchTask.isFinished

/-- Progress measure of `SelectMessages`: what the main goroutine has still to do (users to
read, then the code after the loop), then what the launched goroutines have still to do. Every
step lowers it in the lexicographic order. -/
def SelectMessages.measure (GetMessages : Nat → List User → Option (List MsgID))
    (s : MessagesState) : Nat × Nat :=
  (s.inbox.length + (if s.flushed then 0 else 1),
    (s.tasks.map (FetchTask.weight GetMessages)).sum)

/-- The message ids `SelectMessages` sends on `out` for the inbound users under a schedule. -/
def SelectMessages (B : Nat) (GetMessages : Nat → List User → Option (List MsgID))
    (input : List User) (sched : List MessagesAction) : Option (List MsgID) :=
  runStage (SelectMessages.step B GetMessages) SelectMessages.returned MessagesState.out
    (SelectMessages.init input) sched

/-! ## CheckSpam -/

/-- One worker goroutine of `CheckSpam`. `idle`: blocked in `range jobs`. `calling n id`:
it has received `id`, the `n`-th inbound item, and `HasSpam(id)` has not returned. `sending`:
the call returned without error and the worker is at `out <- MsgData{...}`. `exited`: `jobs`
was closed and the worker has run to `wg.Done()`. -/
inductive Worker where
  | idle
  | calling (n : Nat) (id : MsgID)
  | sending (res : MsgData)
  | exited
deriving DecidableEq, Repr

/-- Whether the worker has a `HasSpam` call outstanding. -/
def Worker.isCalling : Worker → Bool
  | .calling _ _ => true
  | _ => false

/-- Whether the worker has run to `wg.Done()`. -/
def Worker.isExited : Worker → Bool
  | .exited => true
  | _ => false

/-- The result for an inbound item: `MsgData{ID: id, HasSpam: res}` when the call number `n`
returned `(res, nil)`, nothing when it returned an error. -/
def classified (HasSpam : Nat → MsgID → Option Bool) (n : Nat) (id : MsgID) : Option MsgData :=
  match HasSpam n id with
  | some res => some { ID := id, HasSpam := res }
  | none => none

/-- The results a worker will still send. -/
def Worker.owed (HasSpam : Nat → MsgID → Option Bool) : Worker → List MsgData
  | .calling n id => (classified HasSpam n id).toList
  | .sending res => [res]
  | _ => []

/-- Remaining scheduler steps of a worker. -/
def Worker.weight : Worker → Nat
  | .idle => 1
  | .calling _ _ => 3
  | .sending _ => 2
  | .exited => 0

/-- State of `CheckSpam`: `inbox` is what `range in` has not yet delivered, `taken` the number
of inbound items handed to workers, `closed` whether `close(jobs)` has run, `workers` the pool,
`out` the results sent. -/
structure SpamState where
  inbox : List MsgID
  taken : Nat
  closed : Bool
  workers : List Worker
  out : List MsgData
deriving DecidableEq, Repr

/-- Scheduler choices of `CheckSpam`. `dispatch w`: the intake loop receives the next id and
hands it over the unbuffered `jobs` channel to the idle worker `w`, which enters `HasSpam`.
`ret w`: `HasSpam` returns in worker `w`. `emit w`: worker `w` sends its result on `out`.
`close`: the inbound stream is exhausted and the intake loop runs `close(jobs)`. `exit w`:
the idle worker `w` sees `jobs` closed and ends. -/
inductive SpamAction where
  | dispatch (w : Nat)
  | ret (w : Nat)
  | emit (w : Nat)
  | close
  | exit (w : Nat)
deriving DecidableEq, Repr

/-- State of `CheckSpam` once its `K = HasSpamMaxAsyncRequests` workers are started; a worker
does nothing before the intake loop sends on `jobs`. -/
def CheckSpam.init (K : Nat) (input : List MsgID) : SpamState :=
  { inbox := input, taken := 0, closed := false, workers := List.replicate K .idle, out := [] }

/-- One step of `CheckSpam`; `HasSpam n id` is the outcome of the classification call made for
the `n`-th inbound item: `none` for `err != nil`. -/
def CheckSpam.step (HasSpam : Nat → MsgID → Option Bool) (s : SpamState) :
    SpamAction → Option SpamState
  | .dispatch w =>
    match s.inbox, s.workers[w]? with
    | id :: rest, some .idle =>
      some { s with
        inbox := rest
        taken := s.taken + 1
        workers := s.workers.set w (.calling s.taken id) }
    | _, _ => none
  | .ret w =>
    match s.workers[w]? with
    | some (.calling n id) =>
      match HasSpam n id with
      | some res => some { s with workers := s.workers.set w (.sending { ID := id, HasSpam := res }) }
      | none => some { s with workers := s.workers.set w .idle }
    | _ => none
  | .emit w =>
    match s.workers[w]? with
    | some (.sending res) =>
      some { s with out := s.out ++ [res], workers := s.workers.set w .idle }
    | _ => none
  | .close =>
    if s.inbox.isEmpty && !s.closed then some { s with closed := true } else none
  | .exit w =>
    match s.workers[w]? with
    | some .idle => if s.closed then some { s with workers := s.workers.set w .exited } else none
    | _ => none

/-- `CheckSpam` returns when `close(jobs)` has run and `wg.Wait()` has passed. -/
def CheckSpam.returned (s : SpamState) : Bool :=
  s.closed && s.workers.all Worker.isExited

/-- Number of `HasSpam` calls outstanding in a state. -/
def CheckSpam.outstanding (s : SpamState) : Nat :=
  s.workers.countP Worker.isCalling

/-- Number of scheduler steps `CheckSpam` can still take. -/
def CheckSpam.measure (s : SpamState) : Nat :=
  4 * s.inbox.length + (if s.closed then 0 else 1) + (s.workers.map Worker.weight).sum

/-- The results `CheckSpam` sends on `out` for the inbound ids under a schedule. -/
def CheckSpam (K : Nat) (HasSpam : Nat → MsgID → Option Bool) (input : List MsgID)
    (sched : List SpamAction) : Option (List MsgData) :=
  runStage (CheckSpam.step HasSpam) CheckSpam.returned SpamState.out (CheckSpam.init K input) sched

/-! ## CombineResults -/

/-- The closure given to `sort.Slice` in `CombineResults`. -/
def less (a b : MsgData) : Bool :=
  if a.HasSpam == b.HasSpam then decide (a.ID < b.ID) else a.HasSpam && !b.HasSpam

/-- The order `sort.Slice` establishes for a closure `less`: no later element is less than an
earlier one. -/
def notAfter (a b : MsgData) : Prop := less b a = false

instance : DecidableRel notAfter := fun a b => inferInstanceAs (Decidable (less b a = false))

/-- Stands for `sort.Slice` of the Go standard library, which leaves a rearrangement of the
slice in which no later element is less than an earlier one and promises no stability. An
insertion sort is taken; `sortSlice_unique` shows that for the closure `less` every sort with
that contract leaves the same slice. -/
def sortSlice (results : List MsgData) : List MsgData := results.insertionSort notAfter

/-- The line `fmt.Sprintf("%t %d", msg.HasSpam, msg.ID)`. -/
def formatLine (msg : MsgData) : String := toString msg.HasSpam ++ " " ++ toString msg.ID

/-- The lines `CombineResults` sends on `out`: it drains `in`, sorts, then formats in order. It
has no goroutines of its own, so the lines are a function of the inbound sequence. -/
def CombineResults (input : List MsgData) : List String := (sortSlice input).map formatLine

/-- Ranking of the report: `a` is flagged and `b` is not, or they carry the same flag and `a`
has the smaller id. -/
def Before (a b : MsgData) : Prop :=
  (a.HasSpam = true ∧ b.HasSpam = false) ∨ (a.HasSpam = b.HasSpam ∧ a.ID < b.ID)

/-- Value of a decimal digit character. -/
def digitVal (c : Char) : Nat := c.toNat - 48

/-- One step of reading a decimal numeral from the left. -/
def decodeStep (acc : Nat) (c : Char) : Nat := 10 * acc + digitVal c

/-! ## RunPipeline -/

/-- The collaborators and their limits the four stages are run with. -/
structure Service where
  GetUser : String → User
  GetMessagesMaxUsersBatch : Nat
  GetMessages : Nat → List User → Option (List MsgID)
  HasSpamMaxAsyncRequests : Nat
  HasSpam : Nat → MsgID → Option Bool

/-- The schedules of the three concurrent stages of one pipeline run. -/
structure PipelineSchedule where
  users : List UsersAction
  messages : List MessagesAction
  spam : List SpamAction

/-- `RunPipeline` over the stages `SelectUsers`, `SelectMessages`, `CheckSpam`, `CombineResults`
fed with `emails`: channel `i+1` carries what stage `i` sends, in the order sent, to stage
`i+1`, and every stage's `out` is closed when it returns. The result is the line sequence on
the last channel; `none` when a stage does not return under its schedule. -/
def RunPipeline (svc : Service) (emails : List String) (sched : PipelineSchedule) :
    Option (List String) :=
  match SelectUsers svc.GetUser emails sched.users with
  | none => none
  | some users =>
    match SelectMessages svc.GetMessagesMaxUsersBatch svc.GetMessages users sched.messages with
    | none => none
    | some msgs =>
      match CheckSpam svc.HasSpamMaxAsyncRequests svc.HasSpam msgs sched.spam with
      | none => none
      | some results => some (CombineResults results)

/-- The schedules of one run of the pipeline of `spammer.go`. -/
structure Main.PipelineSchedule where
  users : List Main.UsersAction
  messages : List MessagesAction
  spam : List SpamAction

/-- `RunPipeline` over the four stages of `spammer.go`: as `RunPipeline`, with the `SelectUsers`
of that file; its other three stages are those of `pipeline.go`. -/
def Main.RunPipeline (svc : Service) (emails : List String) (sched : Main.PipelineSchedule) :
    Option (List String) :=
  match Main.SelectUsers svc.GetUser emails sched.users with
  | none => none
  | some users =>
    match SelectMessages svc.GetMessagesMaxUsersBatch svc.GetMessages users sched.messages with
    | none => none
    | some msgs =>
      match CheckSpam svc.HasSpamMaxAsyncRequests svc.HasSpam msgs sched.spam with
      | none => none
      | some results => some (CombineResults results)

/-- The messages of the two users of the end-to-end example of the spec: ids 1 and 2 for
`a@x`, id 3 for `b@x`. -/
def exampleMessages (email : String) : List MsgID :=
  if email = "a@x" then [1, 2] else if email = "b@x" then [3] else []

/-- Collaborators of the end-to-end example of the spec: an email resolves to a user of that
`Email`, a fetch returns the messages of the users of its batch, 1 and 3 are spam and 2 is not,
and no call fails. -/
def exampleService : Service where
  GetUser := fun e => ⟨e.length, e⟩
  GetMessagesMaxUsersBatch := 2
  GetMessages := fun _ batch => some (batch.flatMap fun u => exampleMessages u.Email)
  HasSpamMaxAsyncRequests := 2
  HasSpam := fun _ id => some (id != 2)

/-- What holds in every state `SelectUsers` reaches from the inbound `emails`. -/
structure UsersInv (GetUser : String → User) (emails : List String) (s : UsersState) : Prop where
  consumed : s.tasks.map UserTask.email ++ s.inbox = emails
  keys : ∀ e : String, e ∈ s.users ↔ e ∈ s.out.map User.Email
  distinct : (s.out.map User.Email).Nodup
  resolved : ∀ t ∈ s.tasks, ∀ (e : String) (u : User),
    (t = .waiting e u ∨ t = .finished e u) → u = GetUser e
  recorded : ∀ t ∈ s.tasks, ∀ (e : String) (u : User), t = .finished e u → u.Email ∈ s.users
  origin : ∀ u ∈ s.out, ∃ e ∈ emails, u = GetUser e

/-- What holds in every state `SelectMessages` reaches from the inbound users `input`. -/
structure MessagesInv (B : Nat) (GetMessages : Nat → List User → Option (List MsgID))
    (input : List User) (s : MessagesState) : Prop where
  launched : s.tasks.map FetchTask.batch ++
    (if s.flushed then [] else batchLoop B s.users s.inbox) = batches B input
  drained : s.flushed = true → s.inbox = []
  numbering : ∀ (i : Nat) (t : FetchTask), s.tasks[i]? = some t → t.call = i
  called : s.calls = (s.tasks.map FetchTask.callsMade).sum
  emitted : (s.out ++ s.tasks.flatMap (FetchTask.owed GetMessages)).Perm
    (s.tasks.flatMap fun t => fetched GetMessages t.call t.batch)
  logged : s.fetches.Perm (s.tasks.flatMap FetchTask.fetchedBatch)

/-- What holds in every state `CheckSpam` reaches from the inbound ids `input` with `K`
workers. -/
structure SpamInv (K : Nat) (HasSpam : Nat → MsgID → Option Bool) (input : List MsgID)
    (s : SpamState) : Prop where
  pool : s.workers.length = K
  drained : s.closed = true → s.inbox = []
  exits : ∀ w ∈ s.workers, w = Worker.exited → s.closed = true
  emitted : (s.out ++ s.workers.flatMap (Worker.owed HasSpam) ++
      (List.enumFrom s.taken s.inbox).filterMap fun p => classified HasSpam p.1 p.2).Perm
    (input.enum.filterMap fun p => classified HasSpam p.1 p.2)

section Generic
variable {σ α : Type} (step : σ → α → Option σ)

theorem exec_invariant (I : σ → Prop)
    (hstep : ∀ s a s', I s → step s a = some s' → I s') :
    ∀ (sched : List α) (s s' : σ), I s → exec step s sched = some s' → I s' := by
  intro sched
  induction sched with
  | nil =>
    intro s s' hI h
    simp only [exec, Option.some.injEq] at h
    exact h ▸ hI
  | cons a rest ih =>
    intro s s' hI h
    simp only [exec] at h
    cases hs : step s a with
    | none => simp [hs] at h
    | some t =>
      simp only [hs] at h
      exact ih t s' (hstep s a t hI hs) h

theorem exec_complete {M : Type} (r : M → M → Prop) (hwf : WellFounded r) (I : σ → Prop)
    (μ : σ → M) (returned : σ → Bool)
    (hstep : ∀ s a s', I s → step s a = some s' → I s')
    (hdec : ∀ s a s', I s → step s a = some s' → r (μ s') (μ s))
    (hprog : ∀ s, I s → returned s = false → ∃ a s', step s a = some s') :
    ∀ (s : σ), I s → ∃ sched s', exec step s sched = some s' ∧ returned s' = true := by
  have key : ∀ m : M, ∀ s : σ, μ s = m → I s →
      ∃ sched s', exec step s sched = some s' ∧ returned s' = true := by
    intro m
    induction m using hwf.induction with
    | _ m ih =>
      intro s hm hI
      cases ht : returned s with
      | true => exact ⟨[], s, rfl, ht⟩
      | false =>
        obtain ⟨a, t, hs⟩ := hprog s hI ht
        have hlt := hdec s a t hI hs
        obtain ⟨sched, s', he, hT⟩ := ih (μ t) (hm ▸ hlt) t rfl (hstep s a t hI hs)
        exact ⟨a :: sched, s', by simp [exec, hs, he], hT⟩
  intro s hI
  exact key (μ s) s rfl hI

theorem runStage_eq_some {β : Type} (returned : σ → Bool) (out : σ → List β) (init : σ)
    (sched : List α) (o : List β) :
    runStage step returned out init sched = some o ↔
      ∃ s, exec step init sched = some s ∧ returned s = true ∧ out s = o := by
  unfold runStage
  cases h : exec step init sched with
  | none => simp
  | some s =>
    cases hr : returned s <;> simp [hr]

end Generic

section ListHelpers
variable {τ β : Type}

theorem sum_map_set (w : τ → Nat) : ∀ (l : List τ) (i : Nat) (t t' : τ), l[i]? = some t →
    ((l.set i t').map w).sum + w t = (l.map w).sum + w t' := by
  intro l
  induction l with
  | nil => intro i t t' h; simp at h
  | cons x xs ih =>
    intro i t t' h
    cases i with
    | zero =>
      simp only [List.getElem?_cons_zero, Option.some.injEq] at h
      subst h
      simp only [List.set_cons_zero, List.map_cons, List.sum_cons]
      omega
    | succ j =>
      simp only [List.getElem?_cons_succ] at h
      have := ih j t t' h
      simp only [List.set_cons_succ, List.map_cons, List.sum_cons]
      omega

theorem perm_set_flatMap (g : τ → List β) : ∀ (l : List τ) (i : Nat) (t t' : τ), l[i]? = some t →
    ((l.set i t').flatMap g ++ g t).Perm (l.flatMap g ++ g t') := by
  intro l
  induction l with
  | nil => intro i t t' h; simp at h
  | cons x xs ih =>
    intro i t t' h
    cases i with
    | zero =>
      simp only [List.getElem?_cons_zero, Option.some.injEq] at h
      subst h
      simp only [List.set_cons_zero, List.flatMap_cons]
      have h1 : (g t' ++ xs.flatMap g ++ g x).Perm (g x ++ (g t' ++ xs.flatMap g)) :=
        List.perm_append_comm
      have h2 : (g x ++ (g t' ++ xs.flatMap g)).Perm (g x ++ (xs.flatMap g ++ g t')) :=
        List.Perm.append_left _ List.perm_append_comm
      simpa [List.append_assoc] using h1.trans h2
    | succ j =>
      simp only [List.getElem?_cons_succ] at h
      have := ih j t t' h
      simp only [List.set_cons_succ, List.flatMap_cons, List.append_assoc]
      exact List.Perm.append_left _ this

theorem map_set_same (f : τ → β) : ∀ (l : List τ) (i : Nat) (t t' : τ), l[i]? = some t →
    f t' = f t → (l.set i t').map f = l.map f := by
  intro l
  induction l with
  | nil => intro i t t' h; simp at h
  | cons x xs ih =>
    intro i t t' h hf
    cases i with
    | zero =>
      simp only [List.getElem?_cons_zero, Option.some.injEq] at h
      subst h
      simp [hf]
    | succ j =>
      simp only [List.getElem?_cons_succ] at h
      simp [ih j t t' h hf]

theorem exists_getElem?_of_all_false (p : τ → Bool) (l : List τ) (h : l.all p = false) :
    ∃ (i : Nat) (t : τ), l[i]? = some t ∧ p t = false := by
  induction l with
  | nil => simp at h
  | cons x xs ih =>
    cases hx : p x with
    | false => exact ⟨0, x, by simp, hx⟩
    | true =>
      simp only [List.all_cons, hx, Bool.true_and] at h
      obtain ⟨i, t, h1, h2⟩ := ih h
      exact ⟨i + 1, t, by simpa using h1, h2⟩

theorem mem_of_getElem? {l : List τ} {i : Nat} {t : τ} (h : l[i]? = some t) : t ∈ l :=
  List.mem_iff_getElem?.mpr ⟨i, h⟩

theorem mem_set_cases {l : List τ} {i : Nat} {t x : τ} (h : x ∈ l.set i t) : x = t ∨ x ∈ l := by
  rcases List.mem_or_eq_of_mem_set h with h | h
  · exact Or.inr h
  · exact Or.inl h

end ListHelpers

theorem less_iff_Before (a b : MsgData) : less a b = true ↔ Before a b := by
  obtain ⟨i, p⟩ := a
  obtain ⟨j, q⟩ := b
  cases p <;> cases q <;> simp [less, Before]

theorem notAfter_total (a b : MsgData) : notAfter a b ∨ notAfter b a := by
  obtain ⟨i, p⟩ := a
  obtain ⟨j, q⟩ := b
  cases p <;> cases q <;> simp [notAfter, less] <;> (unfold MsgID at *; omega)

theorem notAfter_trans (a b c : MsgData) (h1 : notAfter a b) (h2 : notAfter b c) : notAfter a c := by
  obtain ⟨i, p⟩ := a
  obtain ⟨j, q⟩ := b
  obtain ⟨k, r⟩ := c
  cases p <;> cases q <;> cases r <;> simp [notAfter, less] at * <;> (unfold MsgID at *; omega)

theorem notAfter_antisymm (a b : MsgData) (h1 : notAfter a b) (h2 : notAfter b a) : a = b := by
  obtain ⟨i, p⟩ := a
  obtain ⟨j, q⟩ := b
  cases p <;> cases q <;> simp [notAfter, less] at * <;> (unfold MsgID at *; omega)

theorem sortSlice_perm (xs : List MsgData) : (sortSlice xs).Perm xs :=
  List.perm_insertionSort notAfter xs

theorem sortSlice_sorted (xs : List MsgData) : (sortSlice xs).Sorted notAfter := by
  haveI : IsTotal MsgData notAfter := ⟨notAfter_total⟩
  haveI : IsTrans MsgData notAfter := ⟨notAfter_trans⟩
  exact List.sorted_insertionSort notAfter xs

theorem sortSlice_unique (xs ys : List MsgData) (hp : ys.Perm xs) (hs : ys.Pairwise notAfter) :
    ys = sortSlice xs := by
  haveI : IsAntisymm MsgData notAfter := ⟨notAfter_antisymm⟩
  exact List.eq_of_perm_of_sorted (hp.trans (sortSlice_perm xs).symm) hs (sortSlice_sorted xs)

theorem sortSlice_strict (xs : List MsgData) (h : xs.Nodup) : (sortSlice xs).Pairwise Before := by
  have hs : (sortSlice xs).Pairwise notAfter := sortSlice_sorted xs
  have hn : (sortSlice xs).Nodup := (sortSlice_perm xs).nodup_iff.mpr h
  have := hs.and hn
  refine this.imp ?_
  intro a b hab
  rw [← less_iff_Before]
  rcases hab with ⟨h1, h2⟩
  by_contra hl
  exact h2 (notAfter_antisymm a b h1 (by simpa [notAfter] using hl))

/-! decimal rendering is injective -/

theorem digitVal_digitChar (k : Nat) (h : k < 10) : digitVal (Nat.digitChar k) = k := by
  interval_cases k <;> decide

theorem decode_toDigitsCore (fuel : Nat) : ∀ (n : Nat) (ds : List Char), n < fuel →
    (Nat.toDigitsCore 10 fuel n ds).foldl decodeStep 0 = ds.foldl decodeStep n := by
  induction fuel with
  | zero => intro n ds h; omega
  | succ f ih =>
    intro n ds h
    unfold Nat.toDigitsCore
    by_cases h0 : n / 10 = 0
    · simp only [h0, if_true]
      have hn : n < 10 := by omega
      simp only [List.foldl, decodeStep, Nat.mod_eq_of_lt hn, digitVal_digitChar n hn]
      simp
    · simp only [h0, if_false]
      rw [ih (n / 10) _ (by omega)]
      simp only [List.foldl, decodeStep, digitVal_digitChar _ (Nat.mod_lt n (by decide))]
      congr 1
      omega

theorem repr_injective (m n : Nat) (h : Nat.repr m = Nat.repr n) : m = n := by
  have hd : Nat.toDigits 10 m = Nat.toDigits 10 n := by
    have := congrArg String.data h
    simpa [Nat.repr] using this
  have hm := decode_toDigitsCore (m + 1) m [] (by omega)
  have hn := decode_toDigitsCore (n + 1) n [] (by omega)
  unfold Nat.toDigits at hd
  rw [hd] at hm
  simpa using hm.symm.trans hn

theorem formatLine_injective (a b : MsgData) (h : formatLine a = formatLine b) : a = b := by
  obtain ⟨i, p⟩ := a
  obtain ⟨j, q⟩ := b
  have hd := congrArg String.data h
  simp only [formatLine, String.data_append] at hd
  cases p <;> cases q
  · have h2 : (toString i : String).data = (toString j : String).data := by
      simpa using hd
    have : Nat.repr i = Nat.repr j := String.ext h2
    rw [repr_injective i j this]
  · exact absurd hd (by simp [toString])
  · exact absurd hd (by simp [toString])
  · have h2 : (toString i : String).data = (toString j : String).data := by
      simpa using hd
    have : Nat.repr i = Nat.repr j := String.ext h2
    rw [repr_injective i j this]

/-- C1: when no classification result is repeated in the input of `CombineResults`, in whatever
order it arrives, the emitted lines are the lines of the input results arranged so that each
earlier result ranks strictly before each later one (flagged before unflagged, and within one
flag strictly ascending ids); stated also on the lines alone: of any two emitted lines the
earlier is the line of a result that ranks strictly before the result of the later. -/
theorem CombineResults_sorted (input : List MsgData) (h : input.Nodup) :
    (∃ rs : List MsgData, CombineResults input = rs.map formatLine ∧ rs.Perm input ∧
        rs.Pairwise Before) ∧
    (CombineResults input).Pairwise
      (fun l₁ l₂ => ∀ a b : MsgData, formatLine a = l₁ → formatLine b = l₂ → Before a b) := by
  refine ⟨⟨sortSlice input, rfl, sortSlice_perm input, sortSlice_strict input h⟩, ?_⟩
  unfold CombineResults
  rw [List.pairwise_map]
  refine (sortSlice_strict input h).imp ?_
  intro x y hxy a b ha hb
  rw [formatLine_injective a x ha, formatLine_injective b y hb]
  exact hxy

theorem CombineResults_sorted_witness :
    [(⟨2, false⟩ : MsgData), ⟨3, true⟩, ⟨1, true⟩].Nodup ∧
    CombineResults [⟨2, false⟩, ⟨3, true⟩, ⟨1, true⟩] = ["true 1", "true 3", "false 2"] ∧
    (CombineResults [⟨2, false⟩, ⟨3, true⟩, ⟨1, true⟩]).Pairwise
      (fun l₁ l₂ => ∀ a b : MsgData, formatLine a = l₁ → formatLine b = l₂ → Before a b) :=
  ⟨by decide, by decide,
    (CombineResults_sorted [⟨2, false⟩, ⟨3, true⟩, ⟨1, true⟩] (by decide)).2⟩

/-- C2: `CombineResults` emits one line per inbound result and nothing else: the emitted lines
are a rearrangement of the inbound results each formatted as the flag (`true` or `false`), one
space and the id in decimal, and there are as many lines as results. -/
theorem CombineResults_lines (input : List MsgData) :
    (CombineResults input).Perm (input.map formatLine) ∧
    (CombineResults input).length = input.length ∧
    (∀ msg : MsgData, formatLine msg =
      (if msg.HasSpam then "true" else "false") ++ " " ++ Nat.repr msg.ID) := by
  refine ⟨(sortSlice_perm input).map formatLine, ?_, ?_⟩
  · simp [CombineResults, (sortSlice_perm input).length_eq]
  · intro msg
    obtain ⟨i, p⟩ := msg
    cases p <;> rfl

theorem CombineResults_perm (xs ys : List MsgData) (h : xs.Perm ys) :
    CombineResults xs = CombineResults ys := by
  unfold CombineResults
  rw [sortSlice_unique ys (sortSlice xs) ((sortSlice_perm xs).trans h) (sortSlice_sorted xs)]

/-- C8: two inbound sequences of `CombineResults` that are rearrangements of one another give
the same line sequence, and so does every slice that a sort with the contract of `sort.Slice`
(a rearrangement in which no later element is less than an earlier one) could leave behind. -/
theorem CombineResults_deterministic (xs ys : List MsgData) (h : xs.Perm ys) :
    CombineResults xs = CombineResults ys ∧
    (∀ sorted : List MsgData, sorted.Perm xs → sorted.Pairwise notAfter →
      sorted.map formatLine = CombineResults ys) := by
  have key : ∀ sorted : List MsgData, sorted.Perm xs → sorted.Pairwise notAfter →
      sorted.map formatLine = CombineResults ys := by
    intro sorted hp hs
    rw [sortSlice_unique ys sorted (hp.trans h) hs]
    rfl
  exact ⟨key (sortSlice xs) (sortSlice_perm xs) (sortSlice_sorted xs), key⟩

theorem CombineResults_deterministic_witness :
    [(⟨2, false⟩ : MsgData), ⟨3, true⟩, ⟨1, true⟩].Perm [⟨1, true⟩, ⟨2, false⟩, ⟨3, true⟩] ∧
    CombineResults [⟨2, false⟩, ⟨3, true⟩, ⟨1, true⟩] =
      CombineResults [⟨1, true⟩, ⟨2, false⟩, ⟨3, true⟩] :=
  ⟨by decide, (CombineResults_deterministic _ _ (by decide)).1⟩

theorem UsersInv_init (GetUser : String → User) (emails : List String) :
    UsersInv GetUser emails (SelectUsers.init emails) := by
  constructor <;> simp [SelectUsers.init]

theorem UsersInv_step (GetUser : String → User) (emails : List String) (s : UsersState)
    (a : UsersAction) (s' : UsersState) (hI : UsersInv GetUser emails s)
    (h : SelectUsers.step GetUser s a = some s') : UsersInv GetUser emails s' := by
  cases a with
  | recv =>
    simp only [SelectUsers.step] at h
    split at h
    · simp at h
    · rename_i email rest hin
      simp only [Option.some.injEq] at h
      subst h
      constructor
      · simpa [hin] using hI.consumed
      · exact hI.keys
      · exact hI.distinct
      · intro t ht e u htu
        simp only [List.mem_append, List.mem_singleton] at ht
        rcases ht with ht | ht
        · exact hI.resolved t ht e u htu
        · subst ht; rcases htu with htu | htu <;> cases htu
      · intro t ht e u htu
        simp only [List.mem_append, List.mem_singleton] at ht
        rcases ht with ht | ht
        · exact hI.recorded t ht e u htu
        · subst ht; cases htu
      · exact hI.origin
  | getUser i =>
    simp only [SelectUsers.step] at h
    split at h
    · rename_i email hti
      simp only [Option.some.injEq] at h
      subst h
      constructor
      · exact (congrArg (· ++ s.inbox) (map_set_same UserTask.email s.tasks i _ (.waiting email (GetUser email)) hti rfl)).trans hI.consumed
      · exact hI.keys
      · exact hI.distinct
      · intro t ht e u htu
        rcases mem_set_cases ht with ht | ht
        · subst ht
          rcases htu with htu | htu
          · cases htu; rfl
          · cases htu
        · exact hI.resolved t ht e u htu
      · intro t ht e u htu
        rcases mem_set_cases ht with ht | ht
        · subst ht; cases htu
        · exact hI.recorded t ht e u htu
      · exact hI.origin
    · simp at h
  | critical i =>
    simp only [SelectUsers.step] at h
    split at h
    · rename_i email user hti
      have hu : user = GetUser email :=
        hI.resolved _ (mem_of_getElem? hti) email user (Or.inl rfl)
      have hmem : email ∈ emails := by
        rw [← hI.consumed]
        exact List.mem_append_left _ (List.mem_map.mpr ⟨_, mem_of_getElem? hti, rfl⟩)
      split at h
      · rename_i hc
        simp only [Option.some.injEq] at h
        subst h
        have hc' : user.Email ∈ s.users := by simpa using hc
        constructor
        · exact (congrArg (· ++ s.inbox) (map_set_same UserTask.email s.tasks i _ (.finished email user) hti rfl)).trans hI.consumed
        · exact hI.keys
        · exact hI.distinct
        · intro t ht e u htu
          rcases mem_set_cases ht with ht | ht
          · subst ht
            rcases htu with htu | htu
            · cases htu
            · cases htu; exact hu
          · exact hI.resolved t ht e u htu
        · intro t ht e u htu
          rcases mem_set_cases ht with ht | ht
          · subst ht; cases htu; exact hc'
          · exact hI.recorded t ht e u htu
        · exact hI.origin
      · rename_i hc
        simp only [Option.some.injEq] at h
        subst h
        have hc' : user.Email ∉ s.users := by simpa using hc
        constructor
        · exact (congrArg (· ++ s.inbox) (map_set_same UserTask.email s.tasks i _ (.finished email user) hti rfl)).trans hI.consumed
        · intro e
          simp [hI.keys e, or_comm]
        · simp only [List.map_append, List.map_cons, List.map_nil]
          refine List.nodup_append.mpr ⟨hI.distinct, List.nodup_singleton _, ?_⟩
          intro e he1 he2
          simp only [List.mem_singleton] at he2
          subst he2
          exact hc' ((hI.keys _).mpr he1)
        · intro t ht e u htu
          rcases mem_set_cases ht with ht | ht
          · subst ht
            rcases htu with htu | htu
            · cases htu
            · cases htu; exact hu
          · exact hI.resolved t ht e u htu
        · intro t ht e u htu
          rcases mem_set_cases ht with ht | ht
          · subst ht; cases htu; exact List.mem_cons_self _ _
          · exact List.mem_cons_of_mem _ (hI.recorded t ht e u htu)
        · intro u hu'
          simp only [List.mem_append, List.mem_singleton] at hu'
          rcases hu' with hu' | hu'
          · exact hI.origin u hu'
          · exact ⟨email, hmem, hu' ▸ hu⟩
    · simp at h

theorem SelectUsers_step_measure (GetUser : String → User) (s : UsersState) (a : UsersAction)
    (s' : UsersState) (h : SelectUsers.step GetUser s a = some s') :
    SelectUsers.measure s' < SelectUsers.measure s := by
  cases a with
  | recv =>
    simp only [SelectUsers.step] at h
    split at h
    · simp at h
    · rename_i email rest hin
      simp only [Option.some.injEq] at h
      subst h
      simp [SelectUsers.measure, hin, UserTask.weight]
      omega
  | getUser i =>
    simp only [SelectUsers.step] at h
    split at h
    · rename_i email hti
      simp only [Option.some.injEq] at h
      subst h
      have := sum_map_set UserTask.weight s.tasks i _ (.waiting email (GetUser email)) hti
      simp only [UserTask.weight] at this
      simp only [SelectUsers.measure]
      omega
    · simp at h
  | critical i =>
    simp only [SelectUsers.step] at h
    split at h
    · rename_i email user hti
      have := sum_map_set UserTask.weight s.tasks i _ (.finished email user) hti
      simp only [UserTask.weight] at this
      split at h <;>
      · simp only [Option.some.injEq] at h
        subst h
        simp only [SelectUsers.measure]
        omega
    · simp at h

theorem SelectUsers_progress (GetUser : String → User) (s : UsersState)
    (h : SelectUsers.returned s = false) :
    ∃ a s', SelectUsers.step GetUser s a = some s' := by
  cases hin : s.inbox with
  | cons email rest =>
    exact ⟨.recv, Option.isSome_iff_exists.mp (by simp [SelectUsers.step, hin])⟩
  | nil =>
    simp only [SelectUsers.returned, hin, List.isEmpty_nil, Bool.true_and] at h
    obtain ⟨i, t, hti, hf⟩ := exists_getElem?_of_all_false _ _ h
    cases t with
    | lookup email =>
      exact ⟨.getUser i, Option.isSome_iff_exists.mp (by simp [SelectUsers.step, hti])⟩
    | waiting email user =>
      refine ⟨.critical i, Option.isSome_iff_exists.mp ?_⟩
      simp only [SelectUsers.step, hti]
      split <;> rfl
    | finished email user => simp [UserTask.isFinished] at hf

/-- From every state `SelectUsers` reaches, some continuation of the schedule makes it return. -/
theorem SelectUsers_returns (GetUser : String → User) (emails : List String) :
    ∃ sched out, SelectUsers GetUser emails sched = some out := by
  obtain ⟨sched, s', he, hr⟩ := exec_complete (SelectUsers.step GetUser) (· < ·)
    Nat.lt_wfRel.wf (fun _ => True) SelectUsers.measure SelectUsers.returned
    (fun _ _ _ _ _ => trivial)
    (fun s a s' _ h => SelectUsers_step_measure GetUser s a s' h)
    (fun s _ h => SelectUsers_progress GetUser s h)
    (SelectUsers.init emails) trivial
  exact ⟨sched, s'.out, (runStage_eq_some _ _ _ _ _ _).mpr ⟨s', he, hr, rfl⟩⟩

theorem UsersInv_of_run (GetUser : String → User) (emails : List String)
    (sched : List UsersAction) (out : List User)
    (h : SelectUsers GetUser emails sched = some out) :
    ∃ s, UsersInv GetUser emails s ∧ SelectUsers.returned s = true ∧ s.out = out := by
  obtain ⟨s, he, hr, ho⟩ := (runStage_eq_some _ _ _ _ _ _).mp h
  exact ⟨s, exec_invariant _ (UsersInv GetUser emails) (UsersInv_step GetUser emails) sched _ s
    (UsersInv_init GetUser emails) he, hr, ho⟩

theorem SelectUsers_emails_mem (GetUser : String → User) (emails : List String)
    (sched : List UsersAction) (out : List User)
    (h : SelectUsers GetUser emails sched = some out) :
    ∀ e ∈ emails, (GetUser e).Email ∈ out.map User.Email := by
  obtain ⟨s, hI, hr, ho⟩ := UsersInv_of_run GetUser emails sched out h
  subst ho
  intro e he
  simp only [SelectUsers.returned, Bool.and_eq_true, List.isEmpty_iff, List.all_eq_true] at hr
  have hc := hI.consumed
  rw [hr.1, List.append_nil] at hc
  rw [← hc] at he
  obtain ⟨t, ht, hte⟩ := List.mem_map.mp he
  have hfin := hr.2 t ht
  cases t with
  | lookup e' => simp [UserTask.isFinished] at hfin
  | waiting e' u => simp [UserTask.isFinished] at hfin
  | finished e' u =>
    simp only [UserTask.email] at hte
    subst hte
    have hu := hI.resolved _ ht e' u (Or.inr rfl)
    have := hI.recorded _ ht e' u rfl
    rw [← hu]
    exact (hI.keys _).mp this

/-- Dedup property of `SelectUsers` of `pipeline.go`, where each goroutine is handed its email:
some schedule lets the stage return, and under every schedule (every order in which the lookup
goroutines pass the mutex) that lets it return, the users sent have pairwise distinct `Email`
fields, the `Email` every inbound email resolves to is among them, so exactly one sent user
carries the `Email` an inbound email `E` resolves to however often `E` occurs, every sent user
is the lookup result of an inbound email, and when the lookup identifies a user by its `Email`
the user for `E` itself is sent exactly once. -/
theorem SelectUsers_dedup_own_email (GetUser : String → User) (emails : List String) :
    (∃ sched out, SelectUsers GetUser emails sched = some out) ∧
    ∀ (sched : List UsersAction) (out : List User),
      SelectUsers GetUser emails sched = some out →
        (out.map User.Email).Nodup ∧
        (∀ e ∈ emails, (GetUser e).Email ∈ out.map User.Email) ∧
        (∀ E ∈ emails, (out.map User.Email).count (GetUser E).Email = 1) ∧
        (∀ u ∈ out, ∃ e ∈ emails, u = GetUser e) ∧
        ((∀ e e' : String, (GetUser e).Email = (GetUser e').Email → GetUser e = GetUser e') →
          ∀ E ∈ emails, out.count (GetUser E) = 1) := by
  refine ⟨SelectUsers_returns GetUser emails, ?_⟩
  intro sched out h
  have hmem := SelectUsers_emails_mem GetUser emails sched out h
  obtain ⟨s, hI, hr, ho⟩ := UsersInv_of_run GetUser emails sched out h
  subst ho
  refine ⟨hI.distinct, hmem, ?_, hI.origin, ?_⟩
  · intro E hE
    exact List.count_eq_one_of_mem hI.distinct (hmem E hE)
  · intro hid E hE
    have hnd : s.out.Nodup := List.Nodup.of_map _ hI.distinct
    refine List.count_eq_one_of_mem hnd ?_
    obtain ⟨u, hu, hue⟩ := List.mem_map.mp (hmem E hE)
    obtain ⟨e, _, hge⟩ := hI.origin u hu
    have : GetUser e = GetUser E := hid e E (by rw [← hge, hue])
    rw [← this, ← hge]
    exact hu

/-- C3: the dedup property fails for `SelectUsers` of `spammer.go` when its goroutines read the
one range variable `email` of the loop: for the inbound emails `a@x`, `a@x`, `b@x`, under the
schedule in which the three goroutines evaluate `email.(string)` after the third iteration, the
stage returns having sent the user of `b@x` alone, so the user for `a@x`, an email that occurs
twice, is sent not once but never. `SelectUsers` of `pipeline.go`, which hands each goroutine
its email, sends exactly one user with that `Email` under every schedule. -/
theorem SelectUsers_dedup_range_variable :
    Main.SelectUsers exampleService.GetUser ["a@x", "a@x", "b@x"]
      [.recv, .recv, .recv, .read 0, .read 1, .read 2, .getUser 0, .getUser 1, .getUser 2,
        .critical 0, .critical 1, .critical 2] = some [⟨3, "b@x"⟩] ∧
    (([⟨3, "b@x"⟩] : List User).map User.Email).count (exampleService.GetUser "a@x").Email = 0 ∧
    (∀ (sched : List UsersAction) (out : List User),
      SelectUsers exampleService.GetUser ["a@x", "a@x", "b@x"] sched = some out →
        (out.map User.Email).count (exampleService.GetUser "a@x").Email = 1) ∧
    (∃ sched out, SelectUsers exampleService.GetUser ["a@x", "a@x", "b@x"] sched = some out) := by
  refine ⟨by decide, by decide, ?_, ?_⟩
  · intro sched out h
    exact ((SelectUsers_dedup_own_email exampleService.GetUser ["a@x", "a@x", "b@x"]).2
      sched out h).2.2.1 "a@x" (by decide)
  · exact (SelectUsers_dedup_own_email exampleService.GetUser ["a@x", "a@x", "b@x"]).1

/-! ### The batches of the main loop of `SelectMessages` -/

theorem batchLoop_flatten (B : Nat) : ∀ (inbox users : List User),
    (batchLoop B users inbox).flatten = users ++ inbox := by
  intro inbox
  induction inbox with
  | nil =>
    intro users
    cases users <;> simp [batchLoop]
  | cons u rest ih =>
    intro users
    simp only [batchLoop]
    split
    · simp [ih]
    · simp [ih]

theorem batchLoop_sizes (B : Nat) (hB : 0 < B) : ∀ (inbox users : List User),
    users.length < B → ∀ b ∈ batchLoop B users inbox, 1 ≤ b.length ∧ b.length ≤ B := by
  intro inbox
  induction inbox with
  | nil =>
    intro users hu b hb
    cases users with
    | nil => simp [batchLoop] at hb
    | cons x xs =>
      simp only [batchLoop, List.length_cons, ne_eq, Nat.add_one_ne_zero, not_false_eq_true,
        if_true, List.mem_singleton] at hb
      subst hb
      simp only [List.length_cons] at hu ⊢
      omega
  | cons u rest ih =>
    intro users hu b hb
    simp only [batchLoop] at hb
    split at hb
    · rename_i hfull
      rcases List.mem_cons.mp hb with hb | hb
      · subst hb
        omega
      · exact ih [] (by simpa using hB) b hb
    · rename_i hfull
      refine ih (users ++ [u]) ?_ b hb
      simp only [List.length_append, List.length_singleton] at hfull ⊢
      omega

theorem batchLoop_full (B : Nat) : ∀ (inbox users : List User) (i : Nat),
    i + 1 < (batchLoop B users inbox).length →
      ∃ b, (batchLoop B users inbox)[i]? = some b ∧ b.length = B := by
  intro inbox
  induction inbox with
  | nil =>
    intro users i hi
    cases users <;> simp [batchLoop] at hi
  | cons u rest ih =>
    intro users i hi
    simp only [batchLoop] at hi ⊢
    split
    · rename_i hfull
      simp only [hfull, if_true, List.length_cons] at hi
      cases i with
      | zero => exact ⟨_, by simp, hfull⟩
      | succ j =>
        obtain ⟨b, hb, hl⟩ := ih [] j (by omega)
        exact ⟨b, by simpa using hb, hl⟩
    · rename_i hfull
      simp only [hfull, if_false] at hi
      exact ih (users ++ [u]) i hi

theorem batchLoop_length (B : Nat) (hB : 0 < B) : ∀ (inbox users : List User),
    users.length < B →
      (batchLoop B users inbox).length = (users.length + inbox.length + B - 1) / B := by
  intro inbox
  induction inbox with
  | nil =>
    intro users hu
    cases users with
    | nil =>
      simp only [batchLoop, List.length_nil, ne_eq, not_true_eq_false, if_false, Nat.add_zero,
        Nat.zero_add]
      exact (Nat.div_eq_of_lt (by omega)).symm
    | cons x xs =>
      simp only [List.length_cons] at hu
      simp only [batchLoop, List.length_cons, ne_eq, Nat.add_one_ne_zero, not_false_eq_true,
        if_true, List.length_singleton, List.length_nil, Nat.add_zero]
      have h1 : xs.length + 1 + B - 1 = xs.length + B := by omega
      rw [h1, Nat.add_div_right _ hB, Nat.div_eq_of_lt (by omega)]
  | cons u rest ih =>
    intro users hu
    simp only [batchLoop]
    split
    · rename_i hfull
      simp only [List.length_append, List.length_singleton] at hfull
      simp only [List.length_cons, ih [] (by simpa using hB), List.length_nil, Nat.zero_add]
      have h1 : users.length + (rest.length + 1) + B - 1 = rest.length + B - 1 + B := by omega
      rw [h1, Nat.add_div_right _ hB]
    · rename_i hfull
      simp only [List.length_append, List.length_singleton] at hfull
      rw [ih (users ++ [u]) (by simp only [List.length_append, List.length_singleton]; omega)]
      simp only [List.length_append, List.length_singleton, List.length_cons, List.length_nil,
        Nat.zero_add]
      have h1 : users.length + 1 + rest.length + B - 1 =
          users.length + (rest.length + 1) + B - 1 := by omega
      rw [h1]

theorem batchLoop_last (B : Nat) (hB : 0 < B) : ∀ (inbox users : List User),
    users.length < B → ∀ b, (batchLoop B users inbox).getLast? = some b →
      b.length = if (users.length + inbox.length) % B = 0 then B
        else (users.length + inbox.length) % B := by
  intro inbox
  induction inbox with
  | nil =>
    intro users hu b hb
    cases users with
    | nil => simp [batchLoop] at hb
    | cons x xs =>
      simp only [batchLoop, List.length_cons, ne_eq, Nat.add_one_ne_zero, not_false_eq_true,
        if_true, List.getLast?_singleton, Option.some.injEq] at hb
      subst hb
      simp only [List.length_cons] at hu
      simp only [List.length_cons, List.length_nil, Nat.add_zero, Nat.mod_eq_of_lt hu,
        Nat.add_one_ne_zero, if_false]
  | cons u rest ih =>
    intro users hu b hb
    simp only [batchLoop] at hb
    split at hb
    · rename_i hfull
      simp only [List.length_append, List.length_singleton] at hfull
      have h1 : users.length + (u :: rest).length = rest.length + B := by
        simp only [List.length_cons]; omega
      rw [h1, Nat.add_mod_right]
      cases hrest : batchLoop B [] rest with
      | nil =>
        simp only [hrest, List.getLast?_singleton, Option.some.injEq] at hb
        subst hb
        have hr : rest = [] := by
          have := batchLoop_flatten B rest []
          rw [hrest] at this
          simpa using this.symm
        subst hr
        simp only [List.length_append, List.length_singleton, List.length_nil, Nat.zero_mod,
          if_true]
        exact hfull
      | cons c cs =>
        rw [hrest, List.getLast?_cons_cons, ← hrest] at hb
        have := ih [] (by simpa using hB) b hb
        simpa using this
    · rename_i hfull
      have := ih (users ++ [u]) (by
        simp only [List.length_append, List.length_singleton] at hfull ⊢; omega) b hb
      simp only [List.length_append, List.length_singleton] at this
      simp only [List.length_cons]
      rw [this]
      have h1 : users.length + 1 + rest.length = users.length + (rest.length + 1) := by omega
      rw [h1]

theorem flatMap_set_same {τ β : Type} (g : τ → List β) (l : List τ) (i : Nat) (t t' : τ)
    (h : l[i]? = some t) (hg : g t' = g t) : (l.set i t').flatMap g = l.flatMap g := by
  rw [List.flatMap_def, List.flatMap_def, map_set_same g l i t t' h hg]

theorem getElem?_append_singleton {τ : Type} (l : List τ) (x t : τ) (i : Nat)
    (h : (l ++ [x])[i]? = some t) : l[i]? = some t ∨ (i = l.length ∧ t = x) := by
  by_cases hi : i < l.length
  · rw [List.getElem?_append_left hi] at h
    exact Or.inl h
  · rw [List.getElem?_append_right (by omega)] at h
    cases hk : i - l.length with
    | zero =>
      rw [hk] at h
      simp only [List.getElem?_cons_zero, Option.some.injEq] at h
      exact Or.inr ⟨by omega, h.symm⟩
    | succ k =>
      rw [hk] at h
      simp at h

theorem getElem?_set_cases {τ : Type} (l : List τ) (i j : Nat) (t' x : τ)
    (h : (l.set i t')[j]? = some x) : (j = i ∧ x = t') ∨ l[j]? = some x := by
  rw [List.getElem?_set] at h
  split at h
  · rename_i hij
    split at h
    · exact Or.inl ⟨hij.symm, by simpa using h.symm⟩
    · cases h
  · exact Or.inr h

theorem MessagesInv_init (B : Nat) (GetMessages : Nat → List User → Option (List MsgID))
    (input : List User) : MessagesInv B GetMessages input (SelectMessages.init input) := by
  constructor <;> simp [SelectMessages.init, batches]

theorem MessagesInv_launch (B : Nat) (GetMessages : Nat → List User → Option (List MsgID))
    (input : List User) (s : MessagesState) (hI : MessagesInv B GetMessages input s)
    (batch : List User) :
    (∀ (i : Nat) (t : FetchTask),
      (s.tasks ++ [FetchTask.fetching s.tasks.length batch])[i]? = some t → t.call = i) ∧
    s.calls = ((s.tasks ++ [FetchTask.fetching s.tasks.length batch]).map
      FetchTask.callsMade).sum ∧
    (s.out ++ (s.tasks ++ [FetchTask.fetching s.tasks.length batch]).flatMap
      (FetchTask.owed GetMessages)).Perm
      ((s.tasks ++ [FetchTask.fetching s.tasks.length batch]).flatMap
        fun t => fetched GetMessages t.call t.batch) ∧
    s.fetches.Perm ((s.tasks ++ [FetchTask.fetching s.tasks.length batch]).flatMap
      FetchTask.fetchedBatch) := by
  refine ⟨?_, ?_, ?_, ?_⟩
  · intro i t ht
    rcases getElem?_append_singleton _ _ _ _ ht with h | ⟨h1, h2⟩
    · exact hI.numbering i t h
    · subst h1 h2; rfl
  · simp [hI.called, FetchTask.callsMade]
  · simp only [List.flatMap_append, List.flatMap_cons, List.flatMap_nil, List.append_nil,
      FetchTask.owed, FetchTask.call, FetchTask.batch, ← List.append_assoc]
    exact hI.emitted.append_right _
  · simpa [FetchTask.fetchedBatch] using hI.logged

theorem MessagesInv_step (B : Nat) (GetMessages : Nat → List User → Option (List MsgID))
    (input : List User) (s : MessagesState) (a : MessagesAction) (s' : MessagesState)
    (hI : MessagesInv B GetMessages input s)
    (h : SelectMessages.step B GetMessages s a = some s') :
    MessagesInv B GetMessages input s' := by
  cases a with
  | recv =>
    simp only [SelectMessages.step] at h
    split at h
    · simp at h
    · rename_i user rest hin
      have hnf : s.flushed = false := by
        cases hf : s.flushed with
        | false => rfl
        | true => have := hI.drained hf; rw [hin] at this; cases this
      have hl := hI.launched
      simp only [hnf, hin, batchLoop, Bool.false_eq_true, if_false] at hl
      split at h
      · rename_i hfull
        simp only [Option.some.injEq] at h
        subst h
        obtain ⟨h1, h2, h3, h4⟩ :=
          MessagesInv_launch B GetMessages input s hI (s.users ++ [user])
        refine ⟨?_, ?_, h1, h2, h3, h4⟩
        · simp only [hfull, if_true] at hl
          simpa [hnf, FetchTask.batch] using hl
        · intro hf; simp [hnf] at hf
      · rename_i hfull
        simp only [Option.some.injEq] at h
        subst h
        refine ⟨?_, ?_, hI.numbering, hI.called, hI.emitted, hI.logged⟩
        · simp only [hfull, if_false] at hl
          simpa [hnf] using hl
        · intro hf; simp [hnf] at hf
  | flush =>
    simp only [SelectMessages.step] at h
    split at h
    · rename_i hg
      simp only [Bool.and_eq_true, List.isEmpty_iff, Bool.not_eq_true'] at hg
      have hl := hI.launched
      simp only [hg.1, hg.2, batchLoop, Bool.false_eq_true, if_false] at hl
      split at h
      · rename_i hne
        simp only [Option.some.injEq] at h
        subst h
        obtain ⟨h1, h2, h3, h4⟩ := MessagesInv_launch B GetMessages input s hI s.users
        refine ⟨?_, fun _ => hg.1, h1, h2, h3, h4⟩
        rw [if_pos hne] at hl
        simpa [FetchTask.batch] using hl
      · rename_i hne
        simp only [Option.some.injEq] at h
        subst h
        refine ⟨?_, fun _ => hg.1, hI.numbering, hI.called, hI.emitted, hI.logged⟩
        rw [if_neg hne] at hl
        simpa using hl
    · simp at h
  | fetch i =>
    simp only [SelectMessages.step] at h
    split at h
    · rename_i call batch hti
      have hsum (t' : FetchTask) := sum_map_set FetchTask.callsMade s.tasks i _ t' hti
      split at h
      · rename_i msgs hg
        simp only [Option.some.injEq] at h
        subst h
        refine ⟨?_, hI.drained, ?_, ?_, ?_, ?_⟩
        · show List.map FetchTask.batch (s.tasks.set i _) ++ _ = _
          rw [map_set_same FetchTask.batch s.tasks i _ (.sending call batch msgs) hti rfl]
          exact hI.launched
        · intro j t ht
          rcases getElem?_set_cases _ _ _ _ _ ht with ⟨h1, h2⟩ | h1
          · subst h1 h2; exact hI.numbering _ (FetchTask.fetching call batch) hti
          · exact hI.numbering j t h1
        · have := hsum (.sending call batch msgs)
          simp only [FetchTask.callsMade] at this
          show s.calls + 1 = (List.map FetchTask.callsMade (s.tasks.set i _)).sum
          rw [hI.called]; omega
        · show (s.out ++ (s.tasks.set i _).flatMap _).Perm ((s.tasks.set i _).flatMap _)
          rw [flatMap_set_same (FetchTask.owed GetMessages) s.tasks i _
              (.sending call batch msgs) hti (by simp [FetchTask.owed, fetched, hg]),
            flatMap_set_same (fun t : FetchTask => fetched GetMessages t.call t.batch) s.tasks i _
              (.sending call batch msgs) hti rfl]
          exact hI.emitted
        · show (s.fetches ++ [batch]).Perm ((s.tasks.set i _).flatMap _)
          have hp := perm_set_flatMap FetchTask.fetchedBatch s.tasks i _
            (.sending call batch msgs) hti
          simp only [FetchTask.fetchedBatch, List.append_nil] at hp
          exact (hI.logged.append_right _).trans hp.symm
      · rename_i hg
        simp only [Option.some.injEq] at h
        subst h
        refine ⟨?_, hI.drained, ?_, ?_, ?_, ?_⟩
        · show List.map FetchTask.batch (s.tasks.set i _) ++ _ = _
          rw [map_set_same FetchTask.batch s.tasks i _ (.finished call batch) hti rfl]
          exact hI.launched
        · intro j t ht
          rcases getElem?_set_cases _ _ _ _ _ ht with ⟨h1, h2⟩ | h1
          · subst h1 h2; exact hI.numbering _ (FetchTask.fetching call batch) hti
          · exact hI.numbering j t h1
        · have := hsum (.finished call batch)
          simp only [FetchTask.callsMade] at this
          show s.calls + 1 = (List.map FetchTask.callsMade (s.tasks.set i _)).sum
          rw [hI.called]; omega
        · show (s.out ++ (s.tasks.set i _).flatMap _).Perm ((s.tasks.set i _).flatMap _)
          rw [flatMap_set_same (FetchTask.owed GetMessages) s.tasks i _
              (.finished call batch) hti (by simp [FetchTask.owed, fetched, hg]),
            flatMap_set_same (fun t : FetchTask => fetched GetMessages t.call t.batch) s.tasks i _
              (.finished call batch) hti rfl]
          exact hI.emitted
        · show (s.fetches ++ [batch]).Perm ((s.tasks.set i _).flatMap _)
          have hp := perm_set_flatMap FetchTask.fetchedBatch s.tasks i _
            (.finished call batch) hti
          simp only [FetchTask.fetchedBatch, List.append_nil] at hp
          exact (hI.logged.append_right _).trans hp.symm
    · simp at h
  | send i =>
    simp only [SelectMessages.step] at h
    split at h
    · rename_i call batch msg rest hti
      simp only [Option.some.injEq] at h
      subst h
      have hsum := sum_map_set FetchTask.callsMade s.tasks i _ (.sending call batch rest) hti
      refine ⟨?_, hI.drained, ?_, ?_, ?_, ?_⟩
      · show List.map FetchTask.batch (s.tasks.set i _) ++ _ = _
        rw [map_set_same FetchTask.batch s.tasks i _ (.sending call batch rest) hti rfl]
        exact hI.launched
      · intro j t ht
        rcases getElem?_set_cases _ _ _ _ _ ht with ⟨h1, h2⟩ | h1
        · subst h1 h2; exact hI.numbering _ (FetchTask.sending call batch (msg :: rest)) hti
        · exact hI.numbering j t h1
      · simp only [FetchTask.callsMade] at hsum
        show s.calls = (List.map FetchTask.callsMade (s.tasks.set i _)).sum
        rw [hI.called]; omega
      · show (s.out ++ [msg] ++ (s.tasks.set i _).flatMap _).Perm ((s.tasks.set i _).flatMap _)
        rw [flatMap_set_same (fun t : FetchTask => fetched GetMessages t.call t.batch) s.tasks i _
          (.sending call batch rest) hti rfl]
        refine List.Perm.trans ?_ hI.emitted
        rw [List.append_assoc]
        refine List.Perm.append_left _ ?_
        have hp := perm_set_flatMap (FetchTask.owed GetMessages) s.tasks i _
          (.sending call batch rest) hti
        simp only [FetchTask.owed] at hp
        have hp2 : ((List.set s.tasks i (.sending call batch rest)).flatMap
            (FetchTask.owed GetMessages) ++ [msg] ++ rest).Perm
            (s.tasks.flatMap (FetchTask.owed GetMessages) ++ rest) := by
          simpa using hp
        exact List.perm_append_comm.trans ((List.perm_append_right_iff rest).mp hp2)
      · show s.fetches.Perm ((s.tasks.set i _).flatMap _)
        rw [flatMap_set_same FetchTask.fetchedBatch s.tasks i _
          (.sending call batch rest) hti rfl]
        exact hI.logged
    · rename_i call batch hti
      simp only [Option.some.injEq] at h
      subst h
      have hsum := sum_map_set FetchTask.callsMade s.tasks i _ (.finished call batch) hti
      refine ⟨?_, hI.drained, ?_, ?_, ?_, ?_⟩
      · show List.map FetchTask.batch (s.tasks.set i _) ++ _ = _
        rw [map_set_same FetchTask.batch s.tasks i _ (.finished call batch) hti rfl]
        exact hI.launched
      · intro j t ht
        rcases getElem?_set_cases _ _ _ _ _ ht with ⟨h1, h2⟩ | h1
        · subst h1 h2; exact hI.numbering _ (FetchTask.sending call batch []) hti
        · exact hI.numbering j t h1
      · simp only [FetchTask.callsMade] at hsum
        show s.calls = (List.map FetchTask.callsMade (s.tasks.set i _)).sum
        rw [hI.called]; omega
      · show (s.out ++ (s.tasks.set i _).flatMap _).Perm ((s.tasks.set i _).flatMap _)
        rw [flatMap_set_same (FetchTask.owed GetMessages) s.tasks i _
            (.finished call batch) hti rfl,
          flatMap_set_same (fun t : FetchTask => fetched GetMessages t.call t.batch) s.tasks i _
            (.finished call batch) hti rfl]
        exact hI.emitted
      · show s.fetches.Perm ((s.tasks.set i _).flatMap _)
        rw [flatMap_set_same FetchTask.fetchedBatch s.tasks i _
          (.finished call batch) hti rfl]
        exact hI.logged
    · simp at h

theorem SelectMessages_step_measure (B : Nat)
    (GetMessages : Nat → List User → Option (List MsgID)) (s : MessagesState)
    (a : MessagesAction) (s' : MessagesState)
    (h : SelectMessages.step B GetMessages s a = some s') :
    Prod.Lex (· < ·) (· < ·) (SelectMessages.measure GetMessages s')
      (SelectMessages.measure GetMessages s) := by
  cases a with
  | recv =>
    simp only [SelectMessages.step] at h
    split at h
    · simp at h
    · rename_i user rest hin
      split at h <;>
      · simp only [Option.some.injEq] at h
        subst h
        simp only [SelectMessages.measure, hin, List.length_cons]
        exact Prod.Lex.left _ _ (by omega)
  | flush =>
    simp only [SelectMessages.step] at h
    split at h
    · rename_i hg
      simp only [Bool.and_eq_true, List.isEmpty_iff, Bool.not_eq_true'] at hg
      split at h <;>
      · simp only [Option.some.injEq] at h
        subst h
        simp only [SelectMessages.measure, hg.2]
        exact Prod.Lex.left _ _ (by simp)
    · simp at h
  | fetch i =>
    simp only [SelectMessages.step] at h
    split at h
    · rename_i call batch hti
      have hsum (t' : FetchTask) :=
        sum_map_set (FetchTask.weight GetMessages) s.tasks i _ t' hti
      split at h
      · rename_i msgs hg
        simp only [Option.some.injEq] at h
        subst h
        have := hsum (.sending call batch msgs)
        simp only [FetchTask.weight, fetched, hg] at this
        simp only [SelectMessages.measure]
        exact Prod.Lex.right _ (by omega)
      · rename_i hg
        simp only [Option.some.injEq] at h
        subst h
        have := hsum (.finished call batch)
        simp only [FetchTask.weight, fetched, hg] at this
        simp only [SelectMessages.measure]
        exact Prod.Lex.right _ (by omega)
    · simp at h
  | send i =>
    simp only [SelectMessages.step] at h
    split at h
    · rename_i call batch msg rest hti
      simp only [Option.some.injEq] at h
      subst h
      have := sum_map_set (FetchTask.weight GetMessages) s.tasks i _
        (.sending call batch rest) hti
      simp only [FetchTask.weight, List.length_cons] at this
      simp only [SelectMessages.measure]
      exact Prod.Lex.right _ (by omega)
    · rename_i call batch hti
      simp only [Option.some.injEq] at h
      subst h
      have := sum_map_set (FetchTask.weight GetMessages) s.tasks i _
        (.finished call batch) hti
      simp only [FetchTask.weight, List.length_nil] at this
      simp only [SelectMessages.measure]
      exact Prod.Lex.right _ (by omega)
    · simp at h

theorem SelectMessages_progress (B : Nat)
    (GetMessages : Nat → List User → Option (List MsgID)) (s : MessagesState)
    (h : SelectMessages.returned s = false) :
    ∃ a s', SelectMessages.step B GetMessages s a = some s' := by
  cases hin : s.inbox with
  | cons user rest =>
    refine ⟨.recv, Option.isSome_iff_exists.mp ?_⟩
    simp only [SelectMessages.step, hin]
    split <;> rfl
  | nil =>
    cases hf : s.flushed with
    | false =>
      refine ⟨.flush, Option.isSome_iff_exists.mp ?_⟩
      simp only [SelectMessages.step, hin, hf, List.isEmpty_nil, Bool.not_false, Bool.and_self,
        if_true]
      split <;> rfl
    | true =>
      simp only [SelectMessages.returned, hf, Bool.true_and] at h
      obtain ⟨i, t, hti, hfin⟩ := exists_getElem?_of_all_false _ _ h
      cases t with
      | fetching call batch =>
        refine ⟨.fetch i, Option.isSome_iff_exists.mp ?_⟩
        simp only [SelectMessages.step, hti]
        split <;> rfl
      | sending call batch msgs =>
        refine ⟨.send i, Option.isSome_iff_exists.mp ?_⟩
        cases msgs <;> simp [SelectMessages.step, hti]
      | finished call batch => simp [FetchTask.isFinished] at hfin

/-- Some schedule lets `SelectMessages` return, whatever the batch size and the fetch outcomes. -/
theorem SelectMessages_returns (B : Nat) (GetMessages : Nat → List User → Option (List MsgID))
    (input : List User) :
    ∃ sched s, exec (SelectMessages.step B GetMessages) (SelectMessages.init input) sched = some s ∧
      SelectMessages.returned s = true :=
  exec_complete (SelectMessages.step B GetMessages) (Prod.Lex (· < ·) (· < ·))
    (WellFounded.prod_lex Nat.lt_wfRel.wf Nat.lt_wfRel.wf) (fun _ => True)
    (SelectMessages.measure GetMessages) SelectMessages.returned
    (fun _ _ _ _ _ => trivial)
    (fun s a s' _ h => SelectMessages_step_measure B GetMessages s a s' h)
    (fun s _ h => SelectMessages_progress B GetMessages s h)
    (SelectMessages.init input) trivial

theorem MessagesInv_of_exec (B : Nat) (GetMessages : Nat → List User → Option (List MsgID))
    (input : List User) (sched : List MessagesAction) (s : MessagesState)
    (h : exec (SelectMessages.step B GetMessages) (SelectMessages.init input) sched = some s) :
    MessagesInv B GetMessages input s :=
  exec_invariant _ (MessagesInv B GetMessages input) (MessagesInv_step B GetMessages input)
    sched _ s (MessagesInv_init B GetMessages input) h

theorem flatMap_numbered (GetMessages : Nat → List User → Option (List MsgID)) :
    ∀ (l : List FetchTask) (k : Nat),
      (∀ (i : Nat) (t : FetchTask), l[i]? = some t → t.call = k + i) →
      l.flatMap (fun t => fetched GetMessages t.call t.batch) =
        (List.enumFrom k (l.map FetchTask.batch)).flatMap
          (fun p => fetched GetMessages p.1 p.2) := by
  intro l
  induction l with
  | nil => intro k _; rfl
  | cons t ts ih =>
    intro k hk
    have h0 := hk 0 t (by simp)
    have hrest := ih (k + 1) (fun i t' h' => by
      have := hk (i + 1) t' (by simpa using h')
      omega)
    simp only [List.flatMap_cons, List.map_cons, List.enumFrom_cons, hrest]
    rw [h0]
    simp

theorem owed_of_finished (GetMessages : Nat → List User → Option (List MsgID)) :
    ∀ (l : List FetchTask), l.all FetchTask.isFinished = true →
      l.flatMap (FetchTask.owed GetMessages) = [] ∧
      (l.map FetchTask.callsMade).sum = l.length := by
  intro l
  induction l with
  | nil => intro _; simp
  | cons t ts ih =>
    intro h
    simp only [List.all_cons, Bool.and_eq_true] at h
    obtain ⟨h1, h2⟩ := ih h.2
    cases t with
    | fetching c b => simp [FetchTask.isFinished] at h
    | sending c b m => simp [FetchTask.isFinished] at h
    | finished c b =>
      simp only [List.flatMap_cons, FetchTask.owed, h1, List.append_nil, List.map_cons,
        FetchTask.callsMade, List.sum_cons, h2, List.length_cons, true_and]
      omega

/-- What a returned `SelectMessages` has done: the goroutines were launched with the batches
of the main loop, one `GetMessages` call was made per batch, and the ids sent are a
rearrangement of what the successful calls returned. -/
theorem SelectMessages_final (B : Nat) (GetMessages : Nat → List User → Option (List MsgID))
    (input : List User) (sched : List MessagesAction) (s : MessagesState)
    (he : exec (SelectMessages.step B GetMessages) (SelectMessages.init input) sched = some s)
    (hr : SelectMessages.returned s = true) :
    s.tasks.map FetchTask.batch = batches B input ∧
    s.calls = (batches B input).length ∧
    s.out.Perm ((batches B input).enum.flatMap fun p => fetched GetMessages p.1 p.2) := by
  have hI := MessagesInv_of_exec B GetMessages input sched s he
  simp only [SelectMessages.returned, Bool.and_eq_true] at hr
  obtain ⟨h1, h2⟩ := owed_of_finished GetMessages s.tasks hr.2
  have hl := hI.launched
  simp only [hr.1, if_true, List.append_nil] at hl
  refine ⟨hl, ?_, ?_⟩
  · rw [hI.called, h2, ← hl, List.length_map]
  · have hp := hI.emitted
    rw [h1, List.append_nil, flatMap_numbered GetMessages s.tasks 0
      (fun i t h => by simpa using hI.numbering i t h), hl] at hp
    exact hp

theorem fetchedBatch_of_finished : ∀ (l : List FetchTask), l.all FetchTask.isFinished = true →
    l.flatMap FetchTask.fetchedBatch = l.map FetchTask.batch := by
  intro l
  induction l with
  | nil => intro _; rfl
  | cons t ts ih =>
    intro h
    simp only [List.all_cons, Bool.and_eq_true] at h
    cases t with
    | fetching c b => simp [FetchTask.isFinished] at h
    | sending c b m => simp [FetchTask.isFinished] at h
    | finished c b =>
      simp [FetchTask.fetchedBatch, FetchTask.batch, ih h.2]

theorem fetchedBatch_mem (t : FetchTask) (b : List User) (h : b ∈ t.fetchedBatch) :
    b = t.batch := by
  cases t <;> simp [FetchTask.fetchedBatch, FetchTask.batch] at h ⊢ <;> exact h

/-- The calls of `GetMessages`: every call made so far was made with one of the batches of the
main loop, and once `SelectMessages` has returned the calls made are, up to their order, these
batches, one call per batch. -/
theorem SelectMessages_fetches (B : Nat) (GetMessages : Nat → List User → Option (List MsgID))
    (input : List User) (sched : List MessagesAction) (s : MessagesState)
    (he : exec (SelectMessages.step B GetMessages) (SelectMessages.init input) sched = some s) :
    (∀ b ∈ s.fetches, b ∈ batches B input) ∧
    (SelectMessages.returned s = true → s.fetches.Perm (batches B input)) := by
  have hI := MessagesInv_of_exec B GetMessages input sched s he
  constructor
  · intro b hb
    have hb' := hI.logged.mem_iff.mp hb
    obtain ⟨t, ht, hbt⟩ := List.mem_flatMap.mp hb'
    rw [fetchedBatch_mem t b hbt, ← hI.launched]
    exact List.mem_append_left _ (List.mem_map.mpr ⟨t, ht, rfl⟩)
  · intro hr
    have h1 := (SelectMessages_final B GetMessages input sched s he hr).1
    simp only [SelectMessages.returned, Bool.and_eq_true] at hr
    have hp := hI.logged
    rw [fetchedBatch_of_finished s.tasks hr.2, h1] at hp
    exact hp

theorem flatMap_fetched_eq (GetMessages : Nat → List User → Option (List MsgID)) :
    ∀ (l : List (Nat × List User)),
      l.flatMap (fun p => fetched GetMessages p.1 p.2) =
        (l.filterMap fun p => GetMessages p.1 p.2).flatten := by
  intro l
  induction l with
  | nil => rfl
  | cons p ps ih =>
    have hhead : fetched GetMessages p.1 p.2 = (GetMessages p.1 p.2).getD [] := by
      unfold fetched
      cases GetMessages p.1 p.2 <;> rfl
    rw [List.flatMap_cons, ih, hhead, List.filterMap_cons]
    cases hg : GetMessages p.1 p.2 with
    | none => simp
    | some msgs => simp

theorem launched_mem_batches (B : Nat) (GetMessages : Nat → List User → Option (List MsgID))
    (input : List User) (sched : List MessagesAction) (s : MessagesState)
    (he : exec (SelectMessages.step B GetMessages) (SelectMessages.init input) sched = some s) :
    ∀ t ∈ s.tasks, t.batch ∈ batches B input := by
  intro t ht
  rw [← (MessagesInv_of_exec B GetMessages input sched s he).launched]
  exact List.mem_append_left _ (List.mem_map.mpr ⟨t, ht, rfl⟩)

/-- C4: with a batch size `B > 0`, once `SelectMessages` has returned on `M` inbound users it
has made `ceil(M/B)` calls of the batched fetch, one per launched goroutine (none for `M = 0`),
and the last batch launched has `M mod B` users, or `B` users when `M mod B = 0`; and some
schedule lets it return. -/
theorem SelectMessages_batch_completeness (B : Nat) (hB : 0 < B)
    (GetMessages : Nat → List User → Option (List MsgID)) (input : List User) :
    (∃ sched s, exec (SelectMessages.step B GetMessages) (SelectMessages.init input) sched =
        some s ∧ SelectMessages.returned s = true) ∧
    ∀ (sched : List MessagesAction) (s : MessagesState),
      exec (SelectMessages.step B GetMessages) (SelectMessages.init input) sched = some s →
      SelectMessages.returned s = true →
        s.calls = (input.length + B - 1) / B ∧
        s.tasks.length = (input.length + B - 1) / B ∧
        (input.length = 0 → s.calls = 0) ∧
        ∀ t, s.tasks.getLast? = some t →
          t.batch.length = if input.length % B = 0 then B else input.length % B := by
  refine ⟨SelectMessages_returns B GetMessages input, ?_⟩
  intro sched s he hr
  obtain ⟨h1, h2, _⟩ := SelectMessages_final B GetMessages input sched s he hr
  have hlen : (batches B input).length = (input.length + B - 1) / B := by
    have := batchLoop_length B hB input [] (by simpa using hB)
    simpa [batches] using this
  refine ⟨h2.trans hlen, ?_, ?_, ?_⟩
  · rw [← hlen, ← h1, List.length_map]
  · intro h0
    rw [h2, hlen, h0]
    exact Nat.div_eq_of_lt (by omega)
  · intro t ht
    have hlast : (batches B input).getLast? = some t.batch := by
      rw [← h1, List.getLast?_map, ht]
      rfl
    have := batchLoop_last B hB input [] (by simpa using hB) t.batch hlast
    simpa using this

theorem SelectMessages_batch_completeness_witness :
    exec (SelectMessages.step 2 fun _ batch => some (batch.map User.ID))
      (SelectMessages.init [⟨1, "a@x"⟩, ⟨2, "b@x"⟩, ⟨3, "c@x"⟩])
      [.recv, .recv, .fetch 0, .recv, .flush, .fetch 1, .send 1, .send 0, .send 0, .send 1,
        .send 0] =
      some { inbox := [], users := [⟨3, "c@x"⟩], flushed := true,
             tasks := [.finished 0 [⟨1, "a@x"⟩, ⟨2, "b@x"⟩], .finished 1 [⟨3, "c@x"⟩]],
             calls := 2, fetches := [[⟨1, "a@x"⟩, ⟨2, "b@x"⟩], [⟨3, "c@x"⟩]],
             out := [3, 1, 2] } ∧
    (2 : Nat) = (3 + 2 - 1) / 2 :=
  ⟨by decide,
    ((SelectMessages_batch_completeness 2 (by decide) (fun _ batch => some (batch.map User.ID))
      [⟨1, "a@x"⟩, ⟨2, "b@x"⟩, ⟨3, "c@x"⟩]).2
      [.recv, .recv, .fetch 0, .recv, .flush, .fetch 1, .send 1, .send 0, .send 0, .send 1,
        .send 0]
      { inbox := [], users := [⟨3, "c@x"⟩], flushed := true,
        tasks := [.finished 0 [⟨1, "a@x"⟩, ⟨2, "b@x"⟩], .finished 1 [⟨3, "c@x"⟩]],
        calls := 2, fetches := [[⟨1, "a@x"⟩, ⟨2, "b@x"⟩], [⟨3, "c@x"⟩]],
        out := [3, 1, 2] } (by decide) (by decide)).1⟩

/-- C6: whatever the batch size and whatever each fetch call returns, the message ids a returned
`SelectMessages` has sent are a rearrangement of the concatenation of what the fetch calls
without error returned, taken over the batches of the inbound users in launch order: a failed
call adds nothing and the other batches are sent in full; and some schedule lets it return. -/
theorem SelectMessages_loss_on_error (B : Nat)
    (GetMessages : Nat → List User → Option (List MsgID)) (input : List User) :
    (∃ sched out, SelectMessages B GetMessages input sched = some out) ∧
    ∀ (sched : List MessagesAction) (out : List MsgID),
      SelectMessages B GetMessages input sched = some out →
        out.Perm ((batches B input).enum.filterMap fun p => GetMessages p.1 p.2).flatten := by
  constructor
  · obtain ⟨sched, s, he, hr⟩ := SelectMessages_returns B GetMessages input
    exact ⟨sched, s.out, (runStage_eq_some _ _ _ _ _ _).mpr ⟨s, he, hr, rfl⟩⟩
  · intro sched out h
    obtain ⟨s, he, hr, ho⟩ := (runStage_eq_some _ _ _ _ _ _).mp h
    subst ho
    rw [← flatMap_fetched_eq]
    exact (SelectMessages_final B GetMessages input sched s he hr).2.2

theorem SelectMessages_loss_on_error_witness :
    SelectMessages 2 (fun call batch => if call = 0 then none else some (batch.map User.ID))
      [⟨1, "a@x"⟩, ⟨2, "b@x"⟩, ⟨3, "c@x"⟩]
      [.recv, .recv, .fetch 0, .recv, .flush, .fetch 1, .send 1, .send 1] = some [3] ∧
    [3].Perm ((batches 2 [⟨1, "a@x"⟩, ⟨2, "b@x"⟩, ⟨3, "c@x"⟩]).enum.filterMap
      fun p => (fun (call : Nat) (batch : List User) =>
        if call = 0 then none else some (batch.map User.ID)) p.1 p.2).flatten :=
  ⟨by decide,
    (SelectMessages_loss_on_error 2
      (fun call batch => if call = 0 then none else some (batch.map User.ID))
      [⟨1, "a@x"⟩, ⟨2, "b@x"⟩, ⟨3, "c@x"⟩]).2
      [.recv, .recv, .fetch 0, .recv, .flush, .fetch 1, .send 1, .send 1] [3] (by decide)⟩

/-- C10: with a batch size `B > 0` some schedule lets `SelectMessages` return, and under
every schedule: each call of the batched fetch made so far, and each fetch goroutine launched
so far, has at least 1 and at most `B` users; once the stage has returned, the fetch calls made
are, up to their order, exactly the launched batches (one call per batch), every launched batch
but the last has exactly `B` users, the batches concatenated in launch order are the inbound
user sequence, and the users of the calls are the inbound users, each in one call. -/
theorem SelectMessages_batches (B : Nat) (hB : 0 < B)
    (GetMessages : Nat → List User → Option (List MsgID)) (input : List User) :
    (∃ sched s, exec (SelectMessages.step B GetMessages) (SelectMessages.init input) sched =
        some s ∧ SelectMessages.returned s = true) ∧
    ∀ (sched : List MessagesAction) (s : MessagesState),
      exec (SelectMessages.step B GetMessages) (SelectMessages.init input) sched = some s →
        (∀ b ∈ s.fetches, 1 ≤ b.length ∧ b.length ≤ B) ∧
        (∀ t ∈ s.tasks, 1 ≤ t.batch.length ∧ t.batch.length ≤ B) ∧
        (SelectMessages.returned s = true →
          s.fetches.Perm (s.tasks.map FetchTask.batch) ∧
          s.calls = s.fetches.length ∧
          (∀ i : Nat, i + 1 < s.tasks.length →
            ∃ t, s.tasks[i]? = some t ∧ t.batch.length = B) ∧
          (s.tasks.map FetchTask.batch).flatten = input ∧
          s.fetches.flatten.Perm input) := by
  refine ⟨SelectMessages_returns B GetMessages input, ?_⟩
  intro sched s he
  obtain ⟨hf1, hf2⟩ := SelectMessages_fetches B GetMessages input sched s he
  refine ⟨?_, ?_, ?_⟩
  · intro b hb
    exact batchLoop_sizes B hB input [] (by simpa using hB) b (hf1 b hb)
  · intro t ht
    exact batchLoop_sizes B hB input [] (by simpa using hB) t.batch
      (launched_mem_batches B GetMessages input sched s he t ht)
  · intro hr
    obtain ⟨h1, h2, _⟩ := SelectMessages_final B GetMessages input sched s he hr
    have hflat : (batches B input).flatten = input := by
      simpa [batches] using batchLoop_flatten B input []
    refine ⟨?_, ?_, ?_, ?_, ?_⟩
    · rw [h1]; exact hf2 hr
    · rw [h2, (hf2 hr).length_eq]
    · intro i hi
      have hi' : i + 1 < (batchLoop B [] input).length := by
        have := congrArg List.length h1
        simp only [List.length_map, batches] at this
        omega
      obtain ⟨b, hb, hl⟩ := batchLoop_full B input [] i hi'
      have hb' : (s.tasks.map FetchTask.batch)[i]? = some b := by rw [h1]; exact hb
      rw [List.getElem?_map] at hb'
      cases ht : s.tasks[i]? with
      | none => simp [ht] at hb'
      | some t =>
        simp only [ht, Option.map_some', Option.some.injEq] at hb'
        exact ⟨t, rfl, hb' ▸ hl⟩
    · rw [h1]; exact hflat
    · have := (hf2 hr).flatten
      rwa [hflat] at this

theorem SelectMessages_batches_witness :
    exec (SelectMessages.step 2 fun _ batch => some (batch.map User.ID))
      (SelectMessages.init [⟨1, "a@x"⟩, ⟨2, "b@x"⟩, ⟨3, "c@x"⟩])
      [.recv, .recv, .recv, .flush, .fetch 1, .send 1, .fetch 0, .send 0, .send 0, .send 1,
        .send 0] =
      some { inbox := [], users := [⟨3, "c@x"⟩], flushed := true,
             tasks := [.finished 0 [⟨1, "a@x"⟩, ⟨2, "b@x"⟩], .finished 1 [⟨3, "c@x"⟩]],
             calls := 2, fetches := [[⟨3, "c@x"⟩], [⟨1, "a@x"⟩, ⟨2, "b@x"⟩]],
             out := [3, 1, 2] } ∧
    ([[⟨3, "c@x"⟩], [⟨1, "a@x"⟩, ⟨2, "b@x"⟩]] : List (List User)).flatten.Perm
      [⟨1, "a@x"⟩, ⟨2, "b@x"⟩, ⟨3, "c@x"⟩] :=
  ⟨by decide,
    (((SelectMessages_batches 2 (by decide) (fun _ batch => some (batch.map User.ID))
      [⟨1, "a@x"⟩, ⟨2, "b@x"⟩, ⟨3, "c@x"⟩]).2
      [.recv, .recv, .recv, .flush, .fetch 1, .send 1, .fetch 0, .send 0, .send 0, .send 1,
        .send 0]
      { inbox := [], users := [⟨3, "c@x"⟩], flushed := true,
        tasks := [.finished 0 [⟨1, "a@x"⟩, ⟨2, "b@x"⟩], .finished 1 [⟨3, "c@x"⟩]],
        calls := 2, fetches := [[⟨3, "c@x"⟩], [⟨1, "a@x"⟩, ⟨2, "b@x"⟩]],
        out := [3, 1, 2] } (by decide)).2.2 (by decide)).2.2.2.2⟩

theorem SpamInv_init (K : Nat) (HasSpam : Nat → MsgID → Option Bool) (input : List MsgID) :
    SpamInv K HasSpam input (CheckSpam.init K input) := by
  constructor
  · simp [CheckSpam.init]
  · intro h; simp [CheckSpam.init] at h
  · intro w hw he
    simp only [CheckSpam.init] at hw
    rw [List.eq_of_mem_replicate hw] at he
    cases he
  · have hw : ∀ n : Nat, (List.replicate n Worker.idle).flatMap (Worker.owed HasSpam) = [] := by
      intro n
      induction n with
      | zero => rfl
      | succ n ih => simp [List.replicate_succ, Worker.owed, ih]
    simp only [CheckSpam.init, hw, List.nil_append, List.enum]
    exact List.Perm.refl _

theorem SpamInv_step (K : Nat) (HasSpam : Nat → MsgID → Option Bool) (input : List MsgID)
    (s : SpamState) (a : SpamAction) (s' : SpamState) (hI : SpamInv K HasSpam input s)
    (h : CheckSpam.step HasSpam s a = some s') : SpamInv K HasSpam input s' := by
  have hexits : ∀ (i : Nat) (t t' : Worker), s.workers[i]? = some t → t' ≠ Worker.exited →
      ∀ w ∈ s.workers.set i t', w = Worker.exited → s.closed = true := by
    intro i t t' _ hne w hw he
    rcases mem_set_cases hw with hw | hw
    · exact absurd (hw ▸ he) hne
    · exact hI.exits w hw he
  cases a with
  | dispatch w =>
    simp only [CheckSpam.step] at h
    split at h
    · rename_i id rest hin hw
      simp only [Option.some.injEq] at h
      subst h
      have hnc : s.closed = false := by
        cases hc : s.closed with
        | false => rfl
        | true => have := hI.drained hc; rw [hin] at this; cases this
      refine ⟨?_, ?_, ?_, ?_⟩
      · simpa using hI.pool
      · intro hc; simp [hnc] at hc
      · exact hexits w _ _ hw (by simp)
      · have hp := perm_set_flatMap (Worker.owed HasSpam) s.workers w _
          (.calling s.taken id) hw
        simp only [Worker.owed, List.append_nil] at hp
        have he := hI.emitted
        simp only [hin, List.enumFrom_cons, List.filterMap_cons] at he
        refine List.Perm.trans ?_ he
        show (s.out ++ (s.workers.set w _).flatMap _ ++ _).Perm _
        cases hcl : classified HasSpam s.taken id with
        | none =>
          simp only [hcl, Option.toList, List.append_nil] at hp ⊢
          exact (hp.append_left _).append_right _
        | some d =>
          simp only [hcl, Option.toList] at hp ⊢
          have h1 := (hp.append_left s.out).append_right
            ((List.enumFrom (s.taken + 1) rest).filterMap fun p => classified HasSpam p.1 p.2)
          refine h1.trans ?_
          simp [List.append_assoc]
    · simp at h
  | ret w =>
    simp only [CheckSpam.step] at h
    split at h
    · rename_i n id hw
      split at h
      · rename_i res hres
        simp only [Option.some.injEq] at h
        subst h
        refine ⟨?_, hI.drained, hexits w _ _ hw (by simp), ?_⟩
        · simpa using hI.pool
        · show (s.out ++ (s.workers.set w _).flatMap _ ++ _).Perm _
          rw [flatMap_set_same (Worker.owed HasSpam) s.workers w _
            (.sending { ID := id, HasSpam := res }) hw
            (by simp [Worker.owed, classified, hres])]
          exact hI.emitted
      · rename_i hres
        simp only [Option.some.injEq] at h
        subst h
        refine ⟨?_, hI.drained, hexits w _ _ hw (by simp), ?_⟩
        · simpa using hI.pool
        · show (s.out ++ (s.workers.set w _).flatMap _ ++ _).Perm _
          rw [flatMap_set_same (Worker.owed HasSpam) s.workers w _ .idle hw
            (by simp [Worker.owed, classified, hres])]
          exact hI.emitted
    · simp at h
  | emit w =>
    simp only [CheckSpam.step] at h
    split at h
    · rename_i res hw
      simp only [Option.some.injEq] at h
      subst h
      refine ⟨?_, hI.drained, hexits w _ _ hw (by simp), ?_⟩
      · simpa using hI.pool
      · show (s.out ++ [res] ++ (s.workers.set w _).flatMap _ ++ _).Perm _
        refine List.Perm.trans ?_ hI.emitted
        refine List.Perm.append_right _ ?_
        rw [List.append_assoc]
        refine List.Perm.append_left _ ?_
        have hp := perm_set_flatMap (Worker.owed HasSpam) s.workers w _ .idle hw
        simp only [Worker.owed, List.append_nil] at hp
        exact List.perm_append_comm.trans hp
    · simp at h
  | close =>
    simp only [CheckSpam.step] at h
    split at h
    · rename_i hg
      simp only [Bool.and_eq_true, List.isEmpty_iff, Bool.not_eq_true'] at hg
      simp only [Option.some.injEq] at h
      subst h
      exact ⟨hI.pool, fun _ => hg.1, fun _ _ _ => rfl, hI.emitted⟩
    · simp at h
  | exit w =>
    simp only [CheckSpam.step] at h
    split at h
    · rename_i hw
      split at h
      · rename_i hc
        simp only [Option.some.injEq] at h
        subst h
        refine ⟨?_, hI.drained, fun _ _ _ => hc, ?_⟩
        · simpa using hI.pool
        · show (s.out ++ (s.workers.set w _).flatMap _ ++ _).Perm _
          rw [flatMap_set_same (Worker.owed HasSpam) s.workers w _ .exited hw rfl]
          exact hI.emitted
      · simp at h
    · simp at h

theorem CheckSpam_step_measure (HasSpam : Nat → MsgID → Option Bool) (s : SpamState)
    (a : SpamAction) (s' : SpamState) (h : CheckSpam.step HasSpam s a = some s') :
    CheckSpam.measure s' < CheckSpam.measure s := by
  cases a with
  | dispatch w =>
    simp only [CheckSpam.step] at h
    split at h
    · rename_i id rest hin hw
      simp only [Option.some.injEq] at h
      subst h
      have := sum_map_set Worker.weight s.workers w _ (.calling s.taken id) hw
      simp only [Worker.weight] at this
      simp only [CheckSpam.measure, hin, List.length_cons]
      omega
    · simp at h
  | ret w =>
    simp only [CheckSpam.step] at h
    split at h
    · rename_i n id hw
      have hsum (t' : Worker) := sum_map_set Worker.weight s.workers w _ t' hw
      split at h
      · rename_i res hres
        simp only [Option.some.injEq] at h
        subst h
        have := hsum (.sending { ID := id, HasSpam := res })
        simp only [Worker.weight] at this
        simp only [CheckSpam.measure]
        omega
      · simp only [Option.some.injEq] at h
        subst h
        have := hsum .idle
        simp only [Worker.weight] at this
        simp only [CheckSpam.measure]
        omega
    · simp at h
  | emit w =>
    simp only [CheckSpam.step] at h
    split at h
    · rename_i res hw
      simp only [Option.some.injEq] at h
      subst h
      have := sum_map_set Worker.weight s.workers w _ .idle hw
      simp only [Worker.weight] at this
      simp only [CheckSpam.measure]
      omega
    · simp at h
  | close =>
    simp only [CheckSpam.step] at h
    split at h
    · rename_i hg
      simp only [Bool.and_eq_true, List.isEmpty_iff, Bool.not_eq_true'] at hg
      simp only [Option.some.injEq] at h
      subst h
      simp [CheckSpam.measure, hg.2]
    · simp at h
  | exit w =>
    simp only [CheckSpam.step] at h
    split at h
    · rename_i hw
      split at h
      · simp only [Option.some.injEq] at h
        subst h
        have := sum_map_set Worker.weight s.workers w _ .exited hw
        simp only [Worker.weight] at this
        simp only [CheckSpam.measure]
        omega
      · simp at h
    · simp at h

theorem Worker_can_step (HasSpam : Nat → MsgID → Option Bool) (s : SpamState) (i : Nat)
    (t : Worker) (hti : s.workers[i]? = some t) (hne : t ≠ Worker.exited)
    (hidle : t = Worker.idle → s.closed = true ∨ s.inbox ≠ []) :
    ∃ a s', CheckSpam.step HasSpam s a = some s' := by
  cases t with
  | idle =>
    rcases hidle rfl with hc | hin
    · exact ⟨.exit i, Option.isSome_iff_exists.mp (by simp [CheckSpam.step, hti, hc])⟩
    · cases hin' : s.inbox with
      | nil => exact absurd hin' hin
      | cons id rest =>
        exact ⟨.dispatch i, Option.isSome_iff_exists.mp (by simp [CheckSpam.step, hti, hin'])⟩
  | calling n id =>
    refine ⟨.ret i, Option.isSome_iff_exists.mp ?_⟩
    simp only [CheckSpam.step, hti]
    split <;> rfl
  | sending res =>
    exact ⟨.emit i, Option.isSome_iff_exists.mp (by simp [CheckSpam.step, hti])⟩
  | exited => exact absurd rfl hne

theorem CheckSpam_progress (K : Nat) (hK : 0 < K) (HasSpam : Nat → MsgID → Option Bool)
    (input : List MsgID) (s : SpamState) (hI : SpamInv K HasSpam input s)
    (h : CheckSpam.returned s = false) :
    ∃ a s', CheckSpam.step HasSpam s a = some s' := by
  cases hin : s.inbox with
  | cons id rest =>
    have hnc : s.closed = false := by
      cases hc : s.closed with
      | false => rfl
      | true => have := hI.drained hc; rw [hin] at this; cases this
    have h0 : 0 < s.workers.length := by rw [hI.pool]; exact hK
    have hti : s.workers[0]? = some s.workers[0] := List.getElem?_eq_getElem h0
    refine Worker_can_step HasSpam s 0 _ hti ?_ (fun _ => Or.inr (by simp [hin]))
    intro he
    have := hI.exits _ (mem_of_getElem? hti) he
    simp [hnc] at this
  | nil =>
    cases hc : s.closed with
    | false =>
      exact ⟨.close, Option.isSome_iff_exists.mp (by simp [CheckSpam.step, hin, hc])⟩
    | true =>
      simp only [CheckSpam.returned, hc, Bool.true_and] at h
      obtain ⟨i, t, hti, hfin⟩ := exists_getElem?_of_all_false _ _ h
      refine Worker_can_step HasSpam s i t hti ?_ (fun _ => Or.inl hc)
      intro he
      simp [he, Worker.isExited] at hfin

theorem SpamInv_of_exec (K : Nat) (HasSpam : Nat → MsgID → Option Bool) (input : List MsgID)
    (sched : List SpamAction) (s : SpamState)
    (h : exec (CheckSpam.step HasSpam) (CheckSpam.init K input) sched = some s) :
    SpamInv K HasSpam input s :=
  exec_invariant _ (SpamInv K HasSpam input) (SpamInv_step K HasSpam input) sched _ s
    (SpamInv_init K HasSpam input) h

/-- With at least one worker some schedule lets `CheckSpam` return. -/
theorem CheckSpam_returns (K : Nat) (hK : 0 < K) (HasSpam : Nat → MsgID → Option Bool)
    (input : List MsgID) : ∃ sched out, CheckSpam K HasSpam input sched = some out := by
  obtain ⟨sched, s', he, hr⟩ := exec_complete (CheckSpam.step HasSpam) (· < ·)
    Nat.lt_wfRel.wf (SpamInv K HasSpam input) CheckSpam.measure CheckSpam.returned
    (SpamInv_step K HasSpam input)
    (fun s a s' _ h => CheckSpam_step_measure HasSpam s a s' h)
    (fun s hI h => CheckSpam_progress K hK HasSpam input s hI h)
    (CheckSpam.init K input) (SpamInv_init K HasSpam input)
  exact ⟨sched, s'.out, (runStage_eq_some _ _ _ _ _ _).mpr ⟨s', he, hr, rfl⟩⟩

theorem owed_of_exited (HasSpam : Nat → MsgID → Option Bool) :
    ∀ (l : List Worker), l.all Worker.isExited = true →
      l.flatMap (Worker.owed HasSpam) = [] := by
  intro l
  induction l with
  | nil => intro _; rfl
  | cons t ts ih =>
    intro h
    simp only [List.all_cons, Bool.and_eq_true] at h
    cases t with
    | exited => simp [Worker.owed, ih h.2]
    | idle => simp [Worker.isExited] at h
    | calling n id => simp [Worker.isExited] at h
    | sending res => simp [Worker.isExited] at h

/-- What a returned `CheckSpam` has sent: a rearrangement of the results of the classification
calls that returned without error, one call per inbound item. -/
theorem CheckSpam_final (K : Nat) (HasSpam : Nat → MsgID → Option Bool) (input : List MsgID)
    (sched : List SpamAction) (out : List MsgData)
    (h : CheckSpam K HasSpam input sched = some out) :
    out.Perm (input.enum.filterMap fun p => classified HasSpam p.1 p.2) := by
  obtain ⟨s, he, hr, ho⟩ := (runStage_eq_some _ _ _ _ _ _).mp h
  subst ho
  have hI := SpamInv_of_exec K HasSpam input sched s he
  simp only [CheckSpam.returned, Bool.and_eq_true] at hr
  have hp := hI.emitted
  rw [owed_of_exited HasSpam s.workers hr.2, hI.drained hr.1] at hp
  simpa using hp

theorem classified_eq_map (HasSpam : Nat → MsgID → Option Bool) (n : Nat) (id : MsgID) :
    classified HasSpam n id = (HasSpam n id).map fun res => { ID := id, HasSpam := res } := by
  unfold classified
  cases HasSpam n id <;> rfl

/-- C5: under every schedule of the worker pool that lets `CheckSpam` return, and whatever
each classification call returns, the results sent are a rearrangement of `MsgData{ID: id,
HasSpam: r}` taken over the inbound items whose call returned `(r, nil)`: one result per such
item with the flag the call returned, none for an item whose call returned an error; and with
a pool of at least one worker some schedule lets it return. -/
theorem CheckSpam_results (K : Nat) (HasSpam : Nat → MsgID → Option Bool)
    (input : List MsgID) :
    (∀ (sched : List SpamAction) (out : List MsgData),
      CheckSpam K HasSpam input sched = some out →
        out.Perm (input.enum.filterMap fun p =>
          (HasSpam p.1 p.2).map fun res => { ID := p.2, HasSpam := res })) ∧
    (0 < K → ∃ sched out, CheckSpam K HasSpam input sched = some out) := by
  refine ⟨?_, fun hK => CheckSpam_returns K hK HasSpam input⟩
  intro sched out h
  have := CheckSpam_final K HasSpam input sched out h
  simpa only [classified_eq_map] using this

theorem CheckSpam_results_witness :
    CheckSpam 2 (fun _ id => if id = 8 then none else some (id % 2 = 1)) [7, 8, 9, 10]
      [.dispatch 1, .dispatch 0, .ret 0, .ret 1, .dispatch 0, .emit 1, .ret 0, .dispatch 1,
        .close, .ret 1, .emit 0, .exit 0, .emit 1, .exit 1] =
      some [⟨7, true⟩, ⟨9, true⟩, ⟨10, false⟩] ∧
    [(⟨7, true⟩ : MsgData), ⟨9, true⟩, ⟨10, false⟩].Perm
      (([7, 8, 9, 10] : List MsgID).enum.filterMap fun p =>
        ((fun (_ : Nat) (id : MsgID) => if id = 8 then none else some (decide (id % 2 = 1)))
          p.1 p.2).map fun res => { ID := p.2, HasSpam := res }) :=
  ⟨by decide,
    (CheckSpam_results 2 (fun _ id => if id = 8 then none else some (id % 2 = 1))
      [7, 8, 9, 10]).1
      [.dispatch 1, .dispatch 0, .ret 0, .ret 1, .dispatch 0, .emit 1, .ret 0, .dispatch 1,
        .close, .ret 1, .emit 0, .exit 0, .emit 1, .exit 1]
      [⟨7, true⟩, ⟨9, true⟩, ⟨10, false⟩] (by decide)⟩

/-- C7: in every state `CheckSpam` reaches, under any schedule and for any input, the pool has
exactly `K = HasSpamMaxAsyncRequests` workers and the number of `HasSpam` calls outstanding,
at most one per worker, is at most `K`. -/
theorem CheckSpam_bounded_concurrency (K : Nat) (HasSpam : Nat → MsgID → Option Bool)
    (input : List MsgID) (sched : List SpamAction) (s : SpamState)
    (h : exec (CheckSpam.step HasSpam) (CheckSpam.init K input) sched = some s) :
    s.workers.length = K ∧ CheckSpam.outstanding s ≤ K := by
  have hI := SpamInv_of_exec K HasSpam input sched s h
  refine ⟨hI.pool, ?_⟩
  rw [← hI.pool]
  exact List.countP_le_length _

theorem CheckSpam_bounded_concurrency_witness :
    CheckSpam.outstanding
      { inbox := [10], taken := 3, closed := false,
        workers := [.calling 2 9, .calling 1 8], out := [⟨7, true⟩] } = 2 ∧
    CheckSpam.outstanding
      { inbox := [10], taken := 3, closed := false,
        workers := [.calling 2 9, .calling 1 8], out := [⟨7, true⟩] } ≤ 2 :=
  ⟨by decide,
    (CheckSpam_bounded_concurrency 2 (fun _ id => if id = 8 then none else some (id % 2 = 1))
      [7, 8, 9, 10] [.dispatch 0, .dispatch 1, .ret 0, .emit 0, .dispatch 0]
      { inbox := [10], taken := 3, closed := false,
        workers := [.calling 2 9, .calling 1 8], out := [⟨7, true⟩] } (by decide)).2⟩

theorem fetched_example (GetMessages : Nat → List User → Option (List MsgID))
    (hMsgs : ∀ (call : Nat) (batch : List User), ∃ msgs, GetMessages call batch = some msgs ∧
      msgs.Perm (batch.flatMap fun u => exampleMessages u.Email)) :
    ∀ (l : List (Nat × List User)),
      (l.flatMap fun p => fetched GetMessages p.1 p.2).Perm
        ((l.map Prod.snd).flatten.flatMap fun u => exampleMessages u.Email) := by
  intro l
  induction l with
  | nil => exact List.Perm.refl _
  | cons p ps ih =>
    obtain ⟨msgs, hg, hp⟩ := hMsgs p.1 p.2
    simp only [List.flatMap_cons, List.map_cons, List.flatten_cons, List.flatMap_append, fetched,
      hg]
    exact hp.append ih

theorem classified_example (HasSpam : Nat → MsgID → Option Bool) (f : MsgID → MsgData) :
    ∀ (l : List MsgID) (k : Nat),
      (∀ id ∈ l, ∀ n : Nat, classified HasSpam n id = some (f id)) →
      (List.enumFrom k l).filterMap (fun p => classified HasSpam p.1 p.2) = l.map f := by
  intro l
  induction l with
  | nil => intro k _; rfl
  | cons id ids ih =>
    intro k h
    simp only [List.enumFrom_cons, List.filterMap_cons, h id (List.mem_cons_self _ _) k,
      List.map_cons]
    rw [ih (k + 1) (fun id' hid => h id' (List.mem_cons_of_mem _ hid))]

theorem example_users (GetUser : String → User) (hUser : ∀ e, (GetUser e).Email = e)
    (sched : List UsersAction) (users : List User)
    (h : SelectUsers GetUser ["a@x", "b@x", "a@x"] sched = some users) :
    (users.map User.Email).Perm ["a@x", "b@x"] := by
  have hmem := SelectUsers_emails_mem GetUser _ sched users h
  obtain ⟨s, hI, _, ho⟩ := UsersInv_of_run GetUser _ sched users h
  subst ho
  refine (List.perm_ext_iff_of_nodup hI.distinct (by decide)).mpr ?_
  intro e
  constructor
  · intro he
    obtain ⟨u, hu, hue⟩ := List.mem_map.mp he
    obtain ⟨e', he', hge⟩ := hI.origin u hu
    rw [← hue, hge, hUser e']
    simp only [List.mem_cons, List.mem_singleton, List.not_mem_nil, or_false] at he' ⊢
    rcases he' with h1 | h1 | h1
    · exact Or.inl h1
    · exact Or.inr h1
    · exact Or.inl h1
  · intro he
    have := hmem e (by
      simp only [List.mem_cons, List.mem_singleton, List.not_mem_nil, or_false] at he ⊢
      rcases he with h1 | h1
      · exact Or.inl h1
      · exact Or.inr (Or.inl h1))
    rwa [hUser e] at this

theorem example_messages (B : Nat) (GetMessages : Nat → List User → Option (List MsgID))
    (hMsgs : ∀ (call : Nat) (batch : List User), ∃ msgs, GetMessages call batch = some msgs ∧
      msgs.Perm (batch.flatMap fun u => exampleMessages u.Email))
    (users : List User) (hu : (users.map User.Email).Perm ["a@x", "b@x"])
    (sched : List MessagesAction) (msgs : List MsgID)
    (h : SelectMessages B GetMessages users sched = some msgs) : msgs.Perm [1, 2, 3] := by
  obtain ⟨s, he, hr, ho⟩ := (runStage_eq_some _ _ _ _ _ _).mp h
  subst ho
  have h1 := (SelectMessages_final B GetMessages users sched s he hr).2.2
  have h2 := fetched_example GetMessages hMsgs (batches B users).enum
  have h3 : ((batches B users).enum.map Prod.snd).flatten = users := by
    rw [List.enum_map_snd]
    simpa [batches] using batchLoop_flatten B users []
  rw [h3] at h2
  have h4 : (users.flatMap fun u => exampleMessages u.Email) =
      (users.map User.Email).flatMap exampleMessages := by
    rw [List.flatMap_def, List.flatMap_def, List.map_map]
    rfl
  rw [h4] at h2
  exact (h1.trans h2).trans (hu.flatMap_right exampleMessages)

theorem example_results (K : Nat) (HasSpam : Nat → MsgID → Option Bool)
    (hSpam : ∀ n : Nat, HasSpam n 1 = some true ∧ HasSpam n 2 = some false ∧
      HasSpam n 3 = some true)
    (msgs : List MsgID) (hm : msgs.Perm [1, 2, 3]) (sched : List SpamAction)
    (results : List MsgData) (h : CheckSpam K HasSpam msgs sched = some results) :
    results.Perm [⟨1, true⟩, ⟨2, false⟩, ⟨3, true⟩] := by
  have h1 := CheckSpam_final K HasSpam msgs sched results h
  have h2 := classified_example HasSpam (fun id => { ID := id, HasSpam := id != 2 }) msgs 0
    (by
      intro id hid n
      have hid' := hm.mem_iff.mp hid
      obtain ⟨s1, s2, s3⟩ := hSpam n
      simp only [List.mem_cons, List.mem_singleton, List.not_mem_nil, or_false] at hid'
      rcases hid' with h0 | h0 | h0 <;> subst h0
      · simp [classified, s1]
      · simp [classified, s2]
      · simp [classified, s3])
  rw [List.enum, h2] at h1
  exact h1.trans (hm.map _)

/-- End-to-end example on the stages of `pipeline.go`: for the emails `a@x`, `b@x`, `a@x`, with a
lookup that resolves an email to a user of that `Email`, a fetch that returns without error the
messages 1, 2 of `a@x` and 3 of `b@x` for the users of its batch, and a classifier that returns
without error spam for 1 and 3 and not spam for 2, every run of the pipeline, under every
schedule of the three concurrent stages and any batch size, ends with exactly the lines
`true 1`, `true 3`, `false 2` in this order; with at least one classifier worker some schedule
lets the pipeline end. -/
theorem RunPipeline_example_own_email (svc : Service)
    (hUser : ∀ e, (svc.GetUser e).Email = e)
    (hMsgs : ∀ (call : Nat) (batch : List User), ∃ msgs,
      svc.GetMessages call batch = some msgs ∧
      msgs.Perm (batch.flatMap fun u => exampleMessages u.Email))
    (hSpam : ∀ n : Nat, svc.HasSpam n 1 = some true ∧ svc.HasSpam n 2 = some false ∧
      svc.HasSpam n 3 = some true) :
    (∀ (sched : PipelineSchedule) (lines : List String),
      RunPipeline svc ["a@x", "b@x", "a@x"] sched = some lines →
        lines = ["true 1", "true 3", "false 2"]) ∧
    (0 < svc.HasSpamMaxAsyncRequests →
      ∃ sched, RunPipeline svc ["a@x", "b@x", "a@x"] sched =
        some ["true 1", "true 3", "false 2"]) := by
  have key : ∀ (sched : PipelineSchedule) (lines : List String),
      RunPipeline svc ["a@x", "b@x", "a@x"] sched = some lines →
        lines = ["true 1", "true 3", "false 2"] := by
    intro sched lines h
    unfold RunPipeline at h
    cases h1 : SelectUsers svc.GetUser ["a@x", "b@x", "a@x"] sched.users with
    | none => simp [h1] at h
    | some users =>
      simp only [h1] at h
      cases h2 : SelectMessages svc.GetMessagesMaxUsersBatch svc.GetMessages users
          sched.messages with
      | none => simp [h2] at h
      | some msgs =>
        simp only [h2] at h
        cases h3 : CheckSpam svc.HasSpamMaxAsyncRequests svc.HasSpam msgs sched.spam with
        | none => simp [h3] at h
        | some results =>
          simp only [h3, Option.some.injEq] at h
          have hu := example_users svc.GetUser hUser sched.users users h1
          have hm := example_messages _ svc.GetMessages hMsgs users hu sched.messages msgs h2
          have hr := example_results _ svc.HasSpam hSpam msgs hm sched.spam results h3
          rw [← h, CombineResults_perm _ _ hr]
          decide
  refine ⟨key, ?_⟩
  intro hK
  obtain ⟨su, users, h1⟩ := SelectUsers_returns svc.GetUser ["a@x", "b@x", "a@x"]
  obtain ⟨sm, s, he, hr⟩ :=
    SelectMessages_returns svc.GetMessagesMaxUsersBatch svc.GetMessages users
  have h2 : SelectMessages svc.GetMessagesMaxUsersBatch svc.GetMessages users sm = some s.out :=
    (runStage_eq_some _ _ _ _ _ _).mpr ⟨s, he, hr, rfl⟩
  obtain ⟨sc, results, h3⟩ := CheckSpam_returns _ hK svc.HasSpam s.out
  have hrun : RunPipeline svc ["a@x", "b@x", "a@x"] ⟨su, sm, sc⟩ =
      some (CombineResults results) := by
    simp only [RunPipeline, h1, h2, h3]
  exact ⟨⟨su, sm, sc⟩, by rw [hrun, key _ _ hrun]⟩

/-- C9: the end-to-end example fails on the stages of `spammer.go` when the goroutines of its
`SelectUsers` read the one range variable `email` of the loop: fed `a@x`, `b@x`, `a@x` with the
collaborators of the example, under the schedule in which the three lookup goroutines evaluate
`email.(string)` after the third iteration, `b@x` is never looked up and the pipeline ends with
the lines `true 1`, `false 2`, without `true 3`. On the stages of `pipeline.go` the same
collaborators give `true 1`, `true 3`, `false 2` under every schedule, and some schedule lets
the pipeline end. -/
theorem RunPipeline_example_range_variable :
    Main.RunPipeline exampleService ["a@x", "b@x", "a@x"]
      { users := [.recv, .recv, .recv, .read 0, .read 1, .read 2, .getUser 0, .getUser 1,
          .getUser 2, .critical 0, .critical 1, .critical 2]
        messages := [.recv, .flush, .fetch 0, .send 0, .send 0, .send 0]
        spam := [.dispatch 0, .dispatch 1, .ret 0, .ret 1, .emit 0, .emit 1, .close, .exit 0,
          .exit 1] } = some ["true 1", "false 2"] ∧
    (∀ (sched : PipelineSchedule) (lines : List String),
      RunPipeline exampleService ["a@x", "b@x", "a@x"] sched = some lines →
        lines = ["true 1", "true 3", "false 2"]) ∧
    (∃ sched, RunPipeline exampleService ["a@x", "b@x", "a@x"] sched =
      some ["true 1", "true 3", "false 2"]) := by
  have h := RunPipeline_example_own_email exampleService (fun _ => rfl)
    (fun _ _ => ⟨_, rfl, List.Perm.refl _⟩) (fun _ => ⟨rfl, rfl, rfl⟩)
  exact ⟨by decide, h.1, h.2 (by decide)⟩

end Spammer
